import Mathlib

/-!
# lantistp: chunked upload and download

A shallow embedding of `main.go`: the upload handler that splits a file into
chunks named by their MD5 digest and records them in `links.txt`, and the
downloader that fetches the manifest and the chunks and merges them.

Go strings and file contents are byte sequences, so both are `List Nat` here
(`Bytes`). The file system is reduced to what the program touches: the
directory `./temp` (a flat list of entries) and the files outside of it, keyed
by path. HTTP is a function from the requested URL to what the request yields.
Standard output is not modelled. The failures modelled are those the state of
the file system and the answers of the server decide: a path that is a
directory or is missing, a request that fails, a body that breaks off, a line
too long for the scanner. A write to an open regular file succeeds.
-/

namespace Lantistp

/-! ## Bytes and text -/

abbrev Byte := Nat
abbrev Bytes := List Byte

deriving instance DecidableEq for Except

/-- The bytes of an ASCII string literal of the source. -/
def str (s : String) : Bytes := s.toList.map Char.toNat

/-- The verb `%d` of `fmt` on a non-negative integer. -/
def decimal (n : Nat) : Bytes := (Nat.toDigits 10 n).map Char.toNat

/-! ## crypto/md5 (RFC 1321) and the verb `%x` -/

namespace MD5

def shifts : List Nat :=
  [7, 12, 17, 22, 7, 12, 17, 22, 7, 12, 17, 22, 7, 12, 17, 22,
   5, 9, 14, 20, 5, 9, 14, 20, 5, 9, 14, 20, 5, 9, 14, 20,
   4, 11, 16, 23, 4, 11, 16, 23, 4, 11, 16, 23, 4, 11, 16, 23,
   6, 10, 15, 21, 6, 10, 15, 21, 6, 10, 15, 21, 6, 10, 15, 21]

def sines : List Nat :=
  [0xd76aa478, 0xe8c7b756, 0x242070db, 0xc1bdceee, 0xf57c0faf, 0x4787c62a, 0xa8304613, 0xfd469501,
   0x698098d8, 0x8b44f7af, 0xffff5bb1, 0x895cd7be, 0x6b901122, 0xfd987193, 0xa679438e, 0x49b40821,
   0xf61e2562, 0xc040b340, 0x265e5a51, 0xe9b6c7aa, 0xd62f105d, 0x2441453, 0xd8a1e681, 0xe7d3fbc8,
   0x21e1cde6, 0xc33707d6, 0xf4d50d87, 0x455a14ed, 0xa9e3e905, 0xfcefa3f8, 0x676f02d9, 0x8d2a4c8a,
   0xfffa3942, 0x8771f681, 0x6d9d6122, 0xfde5380c, 0xa4beea44, 0x4bdecfa9, 0xf6bb4b60, 0xbebfbc70,
   0x289b7ec6, 0xeaa127fa, 0xd4ef3085, 0x4881d05, 0xd9d4d039, 0xe6db99e5, 0x1fa27cf8, 0xc4ac5665,
   0xf4292244, 0x432aff97, 0xab9423a7, 0xfc93a039, 0x655b59c3, 0x8f0ccc92, 0xffeff47d, 0x85845dd1,
   0x6fa87e4f, 0xfe2ce6e0, 0xa3014314, 0x4e0811a1, 0xf7537e82, 0xbd3af235, 0x2ad7d2bb, 0xeb86d391]

/-- A value reduced to 32 bits. -/
def w32 (x : Nat) : Nat := x % 4294967296

def rotl (x c : Nat) : Nat := w32 ((x <<< c) ||| (x >>> (32 - c)))

def not32 (x : Nat) : Nat := 4294967295 - w32 x

/-- The `n` low bytes of `x`, least significant first. -/
def leBytes : Nat → Nat → Bytes
  | 0, _ => []
  | n + 1, x => x % 256 :: leBytes n (x / 256)

/-- The number whose little-endian bytes are given. -/
def leWord : Bytes → Nat
  | [] => 0
  | b :: bs => b % 256 + 256 * leWord bs

/-- The message followed by the bit 1, zeros up to 56 modulo 64 and the bit length. -/
def pad (msg : Bytes) : Bytes :=
  msg ++ 128 :: List.replicate ((119 - msg.length % 64) % 64) 0 ++ leBytes 8 (8 * msg.length)

structure St where
  a : Nat
  b : Nat
  c : Nat
  d : Nat

def round (m : List Nat) (s : St) (i : Nat) : St :=
  let f :=
    if i < 16 then (s.b &&& s.c) ||| (not32 s.b &&& s.d)
    else if i < 32 then (s.d &&& s.b) ||| (not32 s.d &&& s.c)
    else if i < 48 then s.b ^^^ s.c ^^^ s.d
    else s.c ^^^ (s.b ||| not32 s.d)
  let g :=
    if i < 16 then i
    else if i < 32 then (5 * i + 1) % 16
    else if i < 48 then (3 * i + 5) % 16
    else (7 * i) % 16
  let f2 := w32 (f + s.a + sines.getD i 0 + m.getD g 0)
  { a := s.d, d := s.c, c := s.b, b := w32 (s.b + rotl f2 (shifts.getD i 0)) }

def words : Nat → Bytes → List Nat
  | 0, _ => []
  | n + 1, bs => leWord (bs.take 4) :: words n (bs.drop 4)

def block (s : St) (blk : Bytes) : St :=
  let t := (List.range 64).foldl (round (words 16 blk)) s
  { a := w32 (s.a + t.a), b := w32 (s.b + t.b), c := w32 (s.c + t.c), d := w32 (s.d + t.d) }

def blocks : Nat → St → Bytes → St
  | 0, s, _ => s
  | n + 1, s, bs => blocks n (block s (bs.take 64)) (bs.drop 64)

def init : St := { a := 0x67452301, b := 0xefcdab89, c := 0x98badcfe, d := 0x10325476 }

/-- The 16 bytes of the digest. -/
def sum (msg : Bytes) : Bytes :=
  let p := pad msg
  let s := blocks (p.length / 64) init p
  leBytes 4 s.a ++ leBytes 4 s.b ++ leBytes 4 s.c ++ leBytes 4 s.d

end MD5

/-- One lowercase hexadecimal digit, as its ASCII code. -/
def hexDigit (n : Nat) : Byte := if n < 10 then 48 + n else 87 + n

def hexByte (b : Byte) : Bytes := [hexDigit (b % 256 / 16), hexDigit (b % 16)]

/-- The source's `fmt.Sprintf("%x", md5Sum)` of the digest of `msg`. -/
def md5Hex (msg : Bytes) : Bytes := (MD5.sum msg).flatMap hexByte

/-! ## The file system -/

inductive Node where
  | file (content : Bytes)
  | dir
  deriving DecidableEq

/-- The entries of one directory; of two bindings of a name the first counts. -/
abbrev Dir := List (Bytes × Node)

def dirLookup : Dir → Bytes → Option Node
  | [], _ => none
  | (n, v) :: rest, name => if n = name then some v else dirLookup rest name

def dirRemove (d : Dir) (name : Bytes) : Dir := d.filter (fun e => e.1 ≠ name)

def dirSet (d : Dir) (name : Bytes) (v : Node) : Dir := (name, v) :: dirRemove d name

/-- The names bound in a directory, each once. -/
def dirNames : Dir → List Bytes
  | [] => []
  | (n, _) :: rest => n :: (dirNames rest).filter (fun m => m ≠ n)

def isDir (d : Dir) (name : Bytes) : Bool :=
  match dirLookup d name with
  | some .dir => true
  | _ => false

/-- The source's `os.Create`: the named file is created or truncated. It fails
on a directory, and on the names that stand for a directory itself (the empty
name, `.` and `..`). The model is exact for names without a path separator. -/
def osCreate (d : Dir) (name : Bytes) : Option Dir :=
  if name = [] ∨ name = [46] ∨ name = [46, 46] then none
  else match dirLookup d name with
    | some .dir => none
    | _ => some (dirSet d name (.file []))

/-- A `Write` through the handle of the file opened under `name`: the bytes are
appended. At each call of the source the file is still linked under that name.
Writes to an open regular file succeed. -/
def fileAppend (d : Dir) (name : Bytes) (bytes : Bytes) : Dir :=
  match dirLookup d name with
  | some (.file c) => dirSet d name (.file (c ++ bytes))
  | _ => d

/-- The source's `os.Rename` of a file: an existing file under the new name is
replaced, a directory under the new name makes it fail. -/
def osRename (d : Dir) (oldName newName : Bytes) : Option Dir :=
  match dirLookup d oldName with
  | some (.file c) =>
    match dirLookup d newName with
    | some .dir => none
    | _ => some (dirSet (dirRemove d oldName) newName (.file c))
  | _ => none

/-- What the path `./temp` is. -/
inductive TempNode where
  | missing
  | notDir
  | dir (d : Dir)
  deriving DecidableEq

structure FS where
  temp : TempNode
  cwd : Dir
  deriving DecidableEq

/-- The source's `os.MkdirAll` on `./temp`. -/
def mkdirAll : TempNode → Option Dir
  | .missing => some []
  | .notDir => none
  | .dir d => some d

/-! ## sort.Strings and os.ReadDir -/

/-- Go's `<=` on strings: byte-wise lexicographic. -/
def bytesLe : Bytes → Bytes → Bool
  | [], _ => true
  | _ :: _, [] => false
  | a :: as, b :: bs => if a < b then true else if b < a then false else bytesLe as bs

def insertSorted (x : Bytes) : List Bytes → List Bytes
  | [] => [x]
  | y :: ys => if bytesLe x y then x :: y :: ys else y :: insertSorted x ys

/-- The source's `sort.Strings`. -/
def sortStrings : List Bytes → List Bytes
  | [] => []
  | x :: xs => insertSorted x (sortStrings xs)

/-- The source's `os.ReadDir`: every entry with whether it is a directory,
sorted by name. -/
def readDir (d : Dir) : List (Bytes × Bool) :=
  (sortStrings (dirNames d)).map (fun n => (n, isDir d n))

/-! ## Upload -/

def chunkSize : Nat := 50 * 1024 * 1024

inductive ReadErr where
  | nil
  | eof
  | other
  deriving DecidableEq

/-- What one `file.Read(buffer)` returns: the bytes read (`n` is their number)
and the error. -/
structure ReadResult where
  data : Bytes
  err : ReadErr
  deriving DecidableEq

/-- The reads of a regular file of content `data` into a buffer of `cs` bytes:
as many bytes as fit while some are left, then zero bytes with end of file.
The first argument bounds the number of reads. -/
def fileReadsAux (cs : Nat) : Nat → Bytes → List ReadResult
  | 0, _ => [⟨[], .eof⟩]
  | fuel + 1, rest =>
    if rest = [] then [⟨[], .eof⟩]
    else ⟨rest.take cs, .nil⟩ :: fileReadsAux cs fuel (rest.drop cs)

def fileReads (cs : Nat) (data : Bytes) : List ReadResult :=
  fileReadsAux cs data.length data

structure Response where
  status : Nat
  body : Bytes
  deriving DecidableEq

/-- The source's `http.Error`. -/
def httpError (msg : String) (code : Nat) : Response := ⟨code, str msg ++ [10]⟩

def linksName : Bytes := str "links.txt"

/-- The entry `temp_chunk_%d` of the upload directory. -/
def tempChunkName (chunkNum : Nat) : Bytes := str "temp_chunk_" ++ decimal chunkNum

/-- The entry `%s.%s` of the upload directory, for a digest and `zip`. -/
def chunkFileName (md5 : Bytes) : Bytes := md5 ++ str ".zip"

/-- The first line `Upload` writes to `links.txt`: the file name and a newline. -/
def headerLine (originalFileName : Bytes) : Bytes := originalFileName ++ str "\n"

/-- The line `Upload` writes to `links.txt` for a chunk: `%s\n` of its digest. -/
def md5Line (md5Hex : Bytes) : Bytes := md5Hex ++ str "\n"

/-- The loop of `Upload` over the results of the successive reads; a stream
whose listed reads are used up is at its end. -/
def uploadLoop : List ReadResult → Nat → Dir → Response × Dir
  | [], _, d => (⟨200, str "File uploaded and split successfully"⟩, d)
  | r :: rest, chunkNum, d =>
    match r.err with
    | .eof => (⟨200, str "File uploaded and split successfully"⟩, d)
    | .other => (httpError "Error reading file" 500, d)
    | .nil =>
      match osCreate d (tempChunkName chunkNum) with
      | none => (httpError "Error creating chunk file" 500, d)
      | some d1 =>
        let d2 := fileAppend d1 (tempChunkName chunkNum) r.data
        let md5 := md5Hex r.data
        match osRename d2 (tempChunkName chunkNum) (chunkFileName md5) with
        | none => (httpError "Error renaming chunk file" 500, d2)
        | some d3 => uploadLoop rest (chunkNum + 1) (fileAppend d3 linksName (md5Line md5))

/-- The request as `Upload` sees it: whether the form parses, and the part
`file` when there is one, as its file name and the results of its reads. -/
structure UploadRequest where
  formOK : Bool
  file : Option (Bytes × List ReadResult)

def Upload (req : UploadRequest) (fs : FS) : Response × FS :=
  if req.formOK = false then (httpError "Unable to parse form" 400, fs)
  else match req.file with
    | none => (httpError "Error reading file" 400, fs)
    | some (originalFileName, reads) =>
      match mkdirAll fs.temp with
      | none => (httpError "Error creating directory" 500, fs)
      | some d0 =>
        match osCreate d0 linksName with
        | none => (httpError "Error creating MD5 record file" 500, { fs with temp := .dir d0 })
        | some d1 =>
          let r := uploadLoop reads 0 (fileAppend d1 linksName (headerLine originalFileName))
          (r.1, { fs with temp := .dir r.2 })

/-! ## bufio.Scanner with ScanLines -/

def maxScanTokenSize : Nat := 64 * 1024

def dropCR (line : Bytes) : Bytes :=
  if line.getLast? = some 13 then line.dropLast else line

/-- The tokens `Scan` delivers over an input, and whether it stopped on a line
too long for its buffer. The first argument is the line read so far, last byte
first. A line ends at a newline; the one carriage return before it is dropped;
a last line without newline is delivered when it is not empty. -/
def scanLinesAux : Bytes → Bytes → List Bytes × Bool
  | acc, [] => (if acc = [] then [] else [dropCR acc.reverse], false)
  | acc, b :: rest =>
    if b = 10 then ((dropCR acc.reverse) :: (scanLinesAux [] rest).1, (scanLinesAux [] rest).2)
    else if maxScanTokenSize ≤ acc.length + 1 then ([], true)
    else scanLinesAux (b :: acc) rest

def scanLines (input : Bytes) : List Bytes × Bool := scanLinesAux [] input

/-! ## DownloadFile -/

/-- What a GET yields: the request cannot be built, it cannot be sent, or a
response arrives, whose body delivers its bytes and then ends or fails. -/
inductive HttpResult where
  | badRequest (cause : Bytes)
  | sendFail (cause : Bytes)
  | response (status : Nat) (body : Bytes) (bodyErr : Option Bytes)
  deriving DecidableEq

abbrev Server := Bytes → HttpResult

/-- The path `filepath.Join(tempDir, fileMD5)` as printed. -/
def chunkPath (name : Bytes) : Bytes := str "temp/" ++ name

/-- The source's `downloadChunk`, with the requests it sent. -/
def downloadChunk (http : Server) (chunkURL name : Bytes) (d : Dir) :
    Except Bytes Unit × Dir × List Bytes :=
  match http chunkURL with
  | .badRequest e => (.error (str "failed to create GET request: " ++ e), d, [])
  | .sendFail e => (.error (str "failed to send GET request: " ++ e), d, [chunkURL])
  | .response status body bodyErr =>
    if status ≠ 200 then
      (.error (str "download failed with status " ++ decimal status), d, [chunkURL])
    else match osCreate d name with
      | none =>
        (.error (str "failed to create file " ++ chunkPath name ++ str ": open " ++ chunkPath name
          ++ str ": is a directory"), d, [chunkURL])
      | some d1 =>
        match bodyErr with
        | some e =>
          (.error (str "failed to save chunk " ++ chunkPath name ++ str ": " ++ e),
            fileAppend d1 name body, [chunkURL])
        | none => (.ok (), fileAppend d1 name body, [chunkURL])

/-- The URL `%s/%s.%s` of a chunk. -/
def chunkURL (downloadURL fileMD5 : Bytes) : Bytes :=
  downloadURL ++ str "/" ++ fileMD5 ++ str "." ++ str "zip"

/-- The URL of the manifest. -/
def linksURL (downloadURL : Bytes) : Bytes := downloadURL ++ str "links.txt"

/-- The loop of `DownloadFile` over the manifest's lines. -/
def downloadChunks (http : Server) (downloadURL : Bytes) :
    List Bytes → Dir → Except Bytes Unit × Dir × List Bytes
  | [], d => (.ok (), d, [])
  | fileMD5 :: rest, d =>
    match downloadChunk http (chunkURL downloadURL fileMD5) fileMD5 d with
    | (.error e, d1, reqs) =>
      (.error (str "failed to download chunk " ++ fileMD5 ++ str ": " ++ e), d1, reqs)
    | (.ok _, d1, reqs) =>
      let r := downloadChunks http downloadURL rest d1
      (r.1, r.2.1, reqs ++ r.2.2)

/-- The loop of `mergeFiles` that copies the chunk files into the final file. -/
def mergeLoop (d : Dir) : List Bytes → Bytes → Except Bytes Unit × Bytes
  | [], out => (.ok (), out)
  | name :: rest, out =>
    match dirLookup d name with
    | some (.file c) => mergeLoop d rest (out ++ c)
    | _ => (.error (str "failed to open chunk file " ++ chunkPath name), out)

/-- The source's `mergeFiles` on `./temp`. The final file is taken among the
files outside of `./temp`. -/
def mergeFiles (fileName : Bytes) (fs : FS) : Except Bytes Unit × FS :=
  match osCreate fs.cwd fileName with
  | none => (.error (str "failed to create final file: open " ++ fileName), fs)
  | some cwd1 =>
    match fs.temp with
    | .dir d =>
      let files := readDir d
      let chunkFiles := sortStrings ((files.filter (fun f => f.2 = false)).map Prod.fst)
      let r := mergeLoop d chunkFiles []
      match r.1 with
      | .error e => (.error e, { temp := .dir d, cwd := fileAppend cwd1 fileName r.2 })
      | .ok _ =>
        let cleaned := files.foldl (fun acc f => if f.2 = false then dirRemove acc f.1 else acc) d
        (.ok (), { temp := .dir cleaned, cwd := fileAppend cwd1 fileName r.2 })
    | _ => (.error (str "failed to read temp directory"), { fs with cwd := cwd1 })

structure Outcome where
  result : Except Bytes Unit
  fs : FS
  requests : List Bytes

/-- The error of the scanner after the last `Scan`. -/
def scanErr (tooLong : Bool) (bodyErr : Option Bytes) : Option Bytes :=
  if tooLong then some (str "bufio.Scanner: token too long") else bodyErr

/-- Steps 2 to 4 of `DownloadFile`: the first line of the manifest is the file
name, the lines after it are the digests; no first line, or a scanner that ends
on an error, is a failure. -/
def readLinks (body : Bytes) (bodyErr : Option Bytes) : Except Bytes (Bytes × List Bytes) :=
  match (scanLines body).1 with
  | [] => .error (str "failed to read filename from links file")
  | fileName :: fileMD5s =>
    match scanErr (scanLines body).2 bodyErr with
    | some e => .error (str "failed to read MD5s from links file: " ++ e)
    | none => .ok (fileName, fileMD5s)

/-- The source's `DownloadFile`, with the requests it sent in order. -/
def DownloadFile (http : Server) (downloadURL : Bytes) (fs : FS) : Outcome :=
  match http (linksURL downloadURL) with
  | .badRequest e => ⟨.error (str "failed to get links file: " ++ e), fs, []⟩
  | .sendFail e => ⟨.error (str "failed to get links file: " ++ e), fs, [linksURL downloadURL]⟩
  | .response _ body bodyErr =>
    match readLinks body bodyErr with
    | .error e => ⟨.error e, fs, [linksURL downloadURL]⟩
    | .ok (fileName, fileMD5s) =>
      match mkdirAll fs.temp with
      | none =>
        ⟨.error (str "failed to create temp directory: mkdir temp: not a directory"), fs,
          [linksURL downloadURL]⟩
      | some d0 =>
        let r := downloadChunks http downloadURL fileMD5s d0
        match r.1 with
        | .error e => ⟨.error e, { fs with temp := .dir r.2.1 }, linksURL downloadURL :: r.2.2⟩
        | .ok _ =>
          let m := mergeFiles fileName { fs with temp := .dir r.2.1 }
          ⟨m.1, m.2, linksURL downloadURL :: r.2.2⟩

/-! ## Vocabulary of the statements -/

def IsHexChar (b : Nat) : Prop := (48 ≤ b ∧ b ≤ 57) ∨ (97 ≤ b ∧ b ≤ 102)

instance (b : Nat) : Decidable (IsHexChar b) := by unfold IsHexChar; infer_instance

/-- A digest as `%x` prints one: 32 lowercase hexadecimal digits. -/
def IsHexDigest (h : Bytes) : Prop := h.length = 32 ∧ ∀ b ∈ h, IsHexChar b

/-- The reads `Upload` turns into chunks: those before the first read that
reports an error or the end of the stream. -/
def processed (reads : List ReadResult) : List ReadResult :=
  reads.takeWhile (fun r => r.err = .nil)

/-- The consecutive slices of `cs` bytes of the input, in input order, by
position: slice `i` is the bytes from `i * cs` on, at most `cs` of them, and
there are `⌈length / cs⌉` slices. -/
def slices (cs : Nat) (data : Bytes) : List Bytes :=
  (List.range ((data.length + cs - 1) / cs)).map (fun i => (data.drop (i * cs)).take cs)

/-- The text of `links.txt` after `Upload` wrote the file name and the lines of
the given digests. -/
def manifestText (originalFileName : Bytes) (digests : List Bytes) : Bytes :=
  headerLine originalFileName ++ digests.flatMap md5Line

/-- What `Upload` receives for a well-formed form with a part `file`. -/
def uploadOf (originalFileName : Bytes) (reads : List ReadResult) : UploadRequest :=
  { formOK := true, file := some (originalFileName, reads) }

/-- A line the scanner gives back unchanged: no newline in it, no carriage
return at its end, shorter than the scanner's buffer. -/
def LineSafe (l : Bytes) : Prop :=
  10 ∉ l ∧ l.getLast? ≠ some 13 ∧ l.length < maxScanTokenSize

instance (h : Bytes) : Decidable (IsHexDigest h) := by unfold IsHexDigest; infer_instance

/-- A chunk source that holds the directory `Upload` left and answers what
`DownloadFile` asks for a base: the URL of the manifest with `links.txt`, the
URL of a chunk with the file of that name, anything else with 404. -/
def storeServer (d : Dir) (base : Bytes) : Server := fun url =>
  if url = linksURL base then
    match dirLookup d linksName with
    | some (.file c) => .response 200 c none
    | _ => .response 404 [] none
  else if (base ++ str "/").isPrefixOf url then
    match dirLookup d (url.drop (base.length + 1)) with
    | some (.file c) => .response 200 c none
    | _ => .response 404 [] none
  else .response 404 [] none

/-- The bytes of the file of a name in a directory, none for what is not a file. -/
def fileContent (d : Dir) (name : Bytes) : Bytes :=
  match dirLookup d name with
  | some (.file c) => c
  | _ => []

/-! ## Directory lemmas -/

theorem dirLookup_remove (d : Dir) (n m : Bytes) :
    dirLookup (dirRemove d n) m = if m = n then none else dirLookup d m := by
  induction d with
  | nil => simp [dirRemove, dirLookup]
  | cons e rest ih =>
    obtain ⟨k, v⟩ := e
    unfold dirRemove at ih ⊢
    by_cases hk : k = n
    · subst hk
      simp only [List.filter, ne_eq, not_true_eq_false, decide_False]
      rw [ih]
      by_cases hm : m = k
      · simp [hm]
      · simp [hm, dirLookup, Ne.symm hm]
    · simp only [List.filter, ne_eq, hk, not_false_eq_true, decide_True, dirLookup]
      rw [ih]
      by_cases hm : m = n
      · subst hm; simp [hk]
      · simp [hm]

theorem dirLookup_set (d : Dir) (n m : Bytes) (v : Node) :
    dirLookup (dirSet d n v) m = if m = n then some v else dirLookup d m := by
  unfold dirSet
  by_cases hm : m = n
  · subst hm; simp [dirLookup]
  · simp [dirLookup, hm, Ne.symm hm, dirLookup_remove]

theorem dirLookup_fileAppend (d : Dir) (n m b : Bytes) :
    dirLookup (fileAppend d n b) m =
      if m = n then
        (match dirLookup d n with
          | some (.file c) => some (.file (c ++ b))
          | x => x)
      else dirLookup d m := by
  unfold fileAppend
  by_cases hm : m = n
  · subst hm
    cases h : dirLookup d m with
    | none => simp [h]
    | some v => cases v <;> simp [h, dirLookup_set]
  · cases h : dirLookup d n with
    | none => simp [hm]
    | some v => cases v <;> simp [hm, dirLookup_set]

theorem osCreate_some {d d1 : Dir} {n : Bytes} (h : osCreate d n = some d1) :
    dirLookup d n ≠ some .dir ∧ ∀ m, dirLookup d1 m = if m = n then some (.file []) else dirLookup d m := by
  unfold osCreate at h
  split at h
  · exact absurd h (by simp)
  · split at h
    · exact absurd h (by simp)
    · rename_i hne
      injection h with h
      subst h
      exact ⟨fun hh => hne hh, fun m => dirLookup_set d n m _⟩

theorem osRename_some {d d1 : Dir} {o n : Bytes} (h : osRename d o n = some d1) :
    ∃ c, dirLookup d o = some (.file c) ∧
      ∀ m, dirLookup d1 m = if m = n then some (.file c) else if m = o then none else dirLookup d m := by
  unfold osRename at h
  split at h
  · rename_i c hc
    split at h
    · exact absurd h (by simp)
    · injection h with h
      subst h
      refine ⟨c, hc, fun m => ?_⟩
      rw [dirLookup_set, dirLookup_remove]
  · exact absurd h (by simp)

/-! ## Names and digests -/

set_option maxRecDepth 100000 in
/-- The digests of the test suite of RFC 1321, one of them over two blocks. -/
theorem md5Hex_test_suite :
    md5Hex (str "") = str "d41d8cd98f00b204e9800998ecf8427e" ∧
    md5Hex (str "a") = str "0cc175b9c0f1b6a831c399e269772661" ∧
    md5Hex (str "abc") = str "900150983cd24fb0d6963f7d28e17f72" ∧
    md5Hex (str "message digest") = str "f96b697d7cb7938d525a2f31aaf161d0" ∧
    md5Hex (str ("1234567890123456789012345678901234567890"
        ++ "1234567890123456789012345678901234567890"))
      = str "57edf4a22be3c955ac49da2e2107b67a" := by
  decide

theorem hexDigit_isHex {n : Nat} (h : n < 16) : IsHexChar (hexDigit n) := by
  unfold IsHexChar hexDigit
  by_cases h10 : n < 10
  · rw [if_pos h10]; left; constructor <;> omega
  · rw [if_neg h10]; right; constructor <;> omega

theorem leBytes_length (n x : Nat) : (MD5.leBytes n x).length = n := by
  induction n generalizing x with
  | zero => rfl
  | succ k ih => simp [MD5.leBytes, ih]

theorem sum_length (msg : Bytes) : (MD5.sum msg).length = 16 := by
  simp [MD5.sum, leBytes_length]

theorem flatMap_hexByte_length (l : Bytes) : (l.flatMap hexByte).length = 2 * l.length := by
  induction l with
  | nil => rfl
  | cons b bs ih => simp [List.flatMap_cons, hexByte, ih]; omega

theorem flatMap_hexByte_isHex (l : Bytes) : ∀ b ∈ l.flatMap hexByte, IsHexChar b := by
  induction l with
  | nil => simp
  | cons x xs ih =>
    intro b hb
    simp only [List.flatMap_cons, List.mem_append, hexByte, List.mem_cons, List.mem_singleton,
      List.not_mem_nil, or_false] at hb
    rcases hb with (rfl | rfl) | hb
    · exact hexDigit_isHex (Nat.div_lt_of_lt_mul (by omega))
    · exact hexDigit_isHex (Nat.mod_lt _ (by omega))
    · exact ih b hb

theorem md5Hex_isHexDigest (msg : Bytes) : IsHexDigest (md5Hex msg) :=
  ⟨by rw [md5Hex, flatMap_hexByte_length, sum_length], flatMap_hexByte_isHex _⟩

theorem linksName_eq : linksName = [108, 105, 110, 107, 115, 46, 116, 120, 116] := by decide

theorem tempChunkName_eq (k : Nat) :
    tempChunkName k = 116 :: ([101, 109, 112, 95, 99, 104, 117, 110, 107, 95] ++ decimal k) := by
  have : str "temp_chunk_" = [116, 101, 109, 112, 95, 99, 104, 117, 110, 107, 95] := by decide
  simp [tempChunkName, this]

theorem chunkFileName_eq (h : Bytes) : chunkFileName h = h ++ [46, 122, 105, 112] := by
  have : str ".zip" = [46, 122, 105, 112] := by decide
  simp [chunkFileName, this]

theorem tempChunkName_ne_links (k : Nat) : tempChunkName k ≠ linksName := by
  rw [tempChunkName_eq, linksName_eq]; simp

theorem chunkFileName_ne_links (h : Bytes) : chunkFileName h ≠ linksName := by
  rw [chunkFileName_eq, linksName_eq]
  intro e
  have := congrArg List.getLast? e
  simp at this

theorem chunkFileName_inj {h h' : Bytes} : chunkFileName h = chunkFileName h' ↔ h = h' := by
  rw [chunkFileName_eq, chunkFileName_eq]
  exact List.append_left_inj _

theorem hexDigest_head {h : Bytes} (hh : IsHexDigest h) : ∃ b t, h = b :: t ∧ IsHexChar b := by
  obtain ⟨hl, hc⟩ := hh
  cases h with
  | nil => simp at hl
  | cons b t => exact ⟨b, t, rfl, hc b (by simp)⟩

theorem chunkFileName_ne_temp {h : Bytes} (hh : IsHexDigest h) (k : Nat) :
    chunkFileName h ≠ tempChunkName k := by
  obtain ⟨b, t, rfl, hb⟩ := hexDigest_head hh
  rw [chunkFileName_eq, tempChunkName_eq]
  intro e
  simp only [List.cons_append, List.cons.injEq] at e
  have hb116 : b = 116 := e.1
  subst hb116
  revert hb
  decide

theorem tempChunkName_creatable (k : Nat) :
    ¬ (tempChunkName k = [] ∨ tempChunkName k = [46] ∨ tempChunkName k = [46, 46]) := by
  rw [tempChunkName_eq]; simp

/-! ## The upload loop -/

theorem httpError_status (msg : String) (code : Nat) : (httpError msg code).status = code := rfl

theorem processed_cons_nil {r : ReadResult} (rest : List ReadResult) (h : r.err = .nil) :
    processed (r :: rest) = r :: processed rest := by
  simp [processed, List.takeWhile, h]

theorem processed_cons_stop {r : ReadResult} (rest : List ReadResult) (h : r.err ≠ .nil) :
    processed (r :: rest) = [] := by
  simp [processed, List.takeWhile, h]

/-- One turn of the loop of `Upload`, read from the directory it leaves. -/
theorem uploadStep {d d1 d3 : Dir} {k : Nat} {data c0 : Bytes}
    (hl : dirLookup d linksName = some (.file c0))
    (hc : osCreate d (tempChunkName k) = some d1)
    (hr : osRename (fileAppend d1 (tempChunkName k) data) (tempChunkName k)
      (chunkFileName (md5Hex data)) = some d3) (m : Bytes) :
    dirLookup (fileAppend d3 linksName (md5Line (md5Hex data))) m =
      if m = linksName then some (.file (c0 ++ md5Line (md5Hex data)))
      else if m = chunkFileName (md5Hex data) then some (.file data)
      else if m = tempChunkName k then none
      else dirLookup d m := by
  obtain ⟨_, h1⟩ := osCreate_some hc
  obtain ⟨c, hc2, h3⟩ := osRename_some hr
  have hT : dirLookup (fileAppend d1 (tempChunkName k) data) (tempChunkName k)
      = some (.file data) := by
    rw [dirLookup_fileAppend, if_pos rfl, h1, if_pos rfl]
    simp
  rw [hT] at hc2
  injection hc2 with hc2
  injection hc2 with hc2
  subst hc2
  have hZL := chunkFileName_ne_links (md5Hex data)
  have hTL := tempChunkName_ne_links k
  have hZT := chunkFileName_ne_temp (md5Hex_isHexDigest data) k
  have hL3 : dirLookup d3 linksName = some (.file c0) := by
    rw [h3, if_neg (Ne.symm hZL), if_neg (Ne.symm hTL), dirLookup_fileAppend,
      if_neg (Ne.symm hTL), h1, if_neg (Ne.symm hTL), hl]
  rw [dirLookup_fileAppend, hL3]
  by_cases hm : m = linksName
  · simp [hm]
  · rw [if_neg hm, if_neg hm, h3]
    by_cases hz : m = chunkFileName (md5Hex data)
    · simp [hz]
    · rw [if_neg hz, if_neg hz]
      by_cases ht : m = tempChunkName k
      · simp [ht]
      · rw [if_neg ht, if_neg ht, dirLookup_fileAppend, if_neg ht, h1, if_neg ht]

/-- What a successful run of the loop of `Upload` leaves in the directory. -/
theorem uploadLoop_spec (reads : List ReadResult) : ∀ (k : Nat) (d : Dir) (m : Bytes),
    dirLookup d linksName = some (.file m) →
    (uploadLoop reads k d).1.status = 200 →
    dirLookup (uploadLoop reads k d).2 linksName
        = some (.file (m ++ (processed reads).flatMap (fun r => md5Line (md5Hex r.data))))
    ∧ (∀ r ∈ processed reads, ∃ r' ∈ processed reads, md5Hex r'.data = md5Hex r.data ∧
        dirLookup (uploadLoop reads k d).2 (chunkFileName (md5Hex r.data)) = some (.file r'.data))
    ∧ (∀ x c0, dirLookup d (chunkFileName (md5Hex x)) = some (.file c0) →
        ∃ c, dirLookup (uploadLoop reads k d).2 (chunkFileName (md5Hex x)) = some (.file c) ∧
          (c = c0 ∨ ∃ r' ∈ processed reads, r'.data = c ∧ md5Hex c = md5Hex x))
    ∧ (∀ n, dirLookup d (tempChunkName n) = none →
        dirLookup (uploadLoop reads k d).2 (tempChunkName n) = none)
    ∧ (∀ i, i < (processed reads).length →
        dirLookup (uploadLoop reads k d).2 (tempChunkName (k + i)) = none)
    ∧ (reads.drop (processed reads).length = [] ∨
        ∃ r rest, reads.drop (processed reads).length = r :: rest ∧ r.err = .eof) := by
  induction reads with
  | nil =>
    intro k d m hm _
    simp [uploadLoop, processed, hm]
  | cons r rest ih =>
    intro k d m hm hs
    cases hr : r.err with
    | eof =>
      have hp := processed_cons_stop rest (r := r) (by simp [hr])
      have hu : uploadLoop (r :: rest) k d = (⟨200, str "File uploaded and split successfully"⟩, d) := by
        simp [uploadLoop, hr]
      rw [hp, hu]
      simp [hm, hr]
    | other =>
      have hu : uploadLoop (r :: rest) k d = (httpError "Error reading file" 500, d) := by
        simp [uploadLoop, hr]
      rw [hu] at hs
      simp [httpError_status] at hs
    | nil =>
      have hp := processed_cons_nil rest hr
      cases hc : osCreate d (tempChunkName k) with
      | none =>
        have hu : uploadLoop (r :: rest) k d = (httpError "Error creating chunk file" 500, d) := by
          simp [uploadLoop, hr, hc]
        rw [hu] at hs
        simp [httpError_status] at hs
      | some d1 =>
        cases hn : osRename (fileAppend d1 (tempChunkName k) r.data) (tempChunkName k)
            (chunkFileName (md5Hex r.data)) with
        | none =>
          have hu : uploadLoop (r :: rest) k d = (httpError "Error renaming chunk file" 500,
              fileAppend d1 (tempChunkName k) r.data) := by
            simp [uploadLoop, hr, hc, hn]
          rw [hu] at hs
          simp [httpError_status] at hs
        | some d3 =>
          have hu : uploadLoop (r :: rest) k d = uploadLoop rest (k + 1)
              (fileAppend d3 linksName (md5Line (md5Hex r.data))) := by
            simp [uploadLoop, hr, hc, hn]
          have hstep := uploadStep hm hc hn
          rw [hu] at hs ⊢
          have hL : dirLookup (fileAppend d3 linksName (md5Line (md5Hex r.data))) linksName
              = some (.file (m ++ md5Line (md5Hex r.data))) := by
            rw [hstep, if_pos rfl]
          obtain ⟨i1, i2, i3, i4, i5, i6⟩ := ih (k + 1) _ _ hL hs
          have hZT : ∀ x n, chunkFileName (md5Hex x) ≠ tempChunkName n :=
            fun x n => chunkFileName_ne_temp (md5Hex_isHexDigest x) n
          have hZ : dirLookup (fileAppend d3 linksName (md5Line (md5Hex r.data)))
              (chunkFileName (md5Hex r.data)) = some (.file r.data) := by
            rw [hstep, if_neg (chunkFileName_ne_links _), if_pos rfl]
          rw [hp]
          refine ⟨?_, ?_, ?_, ?_, ?_, ?_⟩
          · rw [i1]; simp [List.flatMap_cons, List.append_assoc]
          · intro q hq
            rcases List.mem_cons.1 hq with rfl | hq
            · obtain ⟨c, hc1, hc2⟩ := i3 q.data q.data hZ
              rcases hc2 with rfl | ⟨r', hr', hrc, hmd⟩
              · exact ⟨q, List.mem_cons_self _ _, rfl, hc1⟩
              · subst hrc
                exact ⟨r', List.mem_cons_of_mem _ hr', hmd, hc1⟩
            · obtain ⟨r', hr', h1, h2⟩ := i2 q hq
              exact ⟨r', List.mem_cons_of_mem _ hr', h1, h2⟩
          · intro x c0 hx
            by_cases hxe : chunkFileName (md5Hex x) = chunkFileName (md5Hex r.data)
            · rw [hxe]
              obtain ⟨c, hc1, hc2⟩ := i3 r.data r.data hZ
              refine ⟨c, hc1, Or.inr ?_⟩
              have hmx : md5Hex r.data = md5Hex x := (chunkFileName_inj.1 hxe).symm
              rcases hc2 with rfl | ⟨r', hr', hrc, hmd⟩
              · exact ⟨r, List.mem_cons_self _ _, rfl, hmx⟩
              · exact ⟨r', List.mem_cons_of_mem _ hr', hrc, hmd.trans hmx⟩
            · have hx' : dirLookup (fileAppend d3 linksName (md5Line (md5Hex r.data)))
                  (chunkFileName (md5Hex x)) = some (.file c0) := by
                rw [hstep, if_neg (chunkFileName_ne_links _), if_neg hxe, if_neg (hZT x k), hx]
              obtain ⟨c, hc1, hc2⟩ := i3 x c0 hx'
              refine ⟨c, hc1, ?_⟩
              rcases hc2 with rfl | ⟨r', hr', hrc, hmd⟩
              · exact Or.inl rfl
              · exact Or.inr ⟨r', List.mem_cons_of_mem _ hr', hrc, hmd⟩
          · intro n hn0
            apply i4
            rw [hstep, if_neg (tempChunkName_ne_links n),
              if_neg (Ne.symm (hZT r.data n))]
            by_cases hnk : tempChunkName n = tempChunkName k
            · rw [if_pos hnk]
            · rw [if_neg hnk, hn0]
          · intro i hi
            cases i with
            | zero =>
              apply i4
              rw [hstep, if_neg (tempChunkName_ne_links _),
                if_neg (Ne.symm (hZT r.data _))]
              simp
            | succ j =>
              have := i5 j (by simpa using hi)
              rw [show k + (j + 1) = k + 1 + j by omega]
              exact this
          · simpa using i6

/-! ## Slices of the input -/

theorem slices_length (cs : Nat) (data : Bytes) :
    (slices cs data).length = (data.length + cs - 1) / cs := by
  simp [slices]

theorem slices_nil {cs : Nat} (hcs : 0 < cs) : slices cs [] = [] := by
  have : (cs - 1) / cs = 0 := Nat.div_eq_of_lt (by omega)
  simp [slices, this]

theorem slices_cons {cs : Nat} (hcs : 0 < cs) {data : Bytes} (hd : data ≠ []) :
    slices cs data = data.take cs :: slices cs (data.drop cs) := by
  have hlen : 0 < data.length := List.length_pos.2 hd
  have hn : (data.length + cs - 1) / cs = ((data.drop cs).length + cs - 1) / cs + 1 := by
    rw [List.length_drop]
    by_cases h : data.length ≤ cs
    · have h0 : data.length - cs = 0 := by omega
      rw [h0]
      have e1 : (0 + cs - 1) / cs = 0 := Nat.div_eq_of_lt (by omega)
      rw [e1]
      have e2 : data.length + cs - 1 = (data.length - 1) + cs := by omega
      rw [e2, Nat.add_div_right _ hcs, Nat.div_eq_of_lt (by omega)]
    · have e2 : data.length + cs - 1 = (data.length - cs + cs - 1) + cs := by omega
      rw [e2, Nat.add_div_right _ hcs]
  unfold slices
  rw [hn, List.range_succ_eq_map]
  simp only [List.map_cons, List.map_map, Nat.zero_mul, List.drop_zero, List.cons.injEq, true_and]
  apply List.map_congr_left
  intro i _
  simp only [Function.comp, List.drop_drop]
  congr 2
  rw [Nat.succ_mul]; omega

theorem slices_props {cs : Nat} (hcs : 0 < cs) : ∀ (n : Nat) (data : Bytes), data.length ≤ n →
    (slices cs data).flatten = data ∧ ∀ s ∈ slices cs data, 1 ≤ s.length ∧ s.length ≤ cs := by
  intro n
  induction n with
  | zero =>
    intro data h
    have : data = [] := List.length_eq_zero.1 (by omega)
    subst this
    simp [slices_nil hcs]
  | succ k ih =>
    intro data h
    by_cases hd : data = []
    · subst hd; simp [slices_nil hcs]
    · have hlen : 0 < data.length := List.length_pos.2 hd
      rw [slices_cons hcs hd]
      obtain ⟨h1, h2⟩ := ih (data.drop cs) (by rw [List.length_drop]; omega)
      refine ⟨?_, ?_⟩
      · rw [List.flatten_cons, h1, List.take_append_drop]
      · intro s hs
        rcases List.mem_cons.1 hs with rfl | hs
        · rw [List.length_take]; omega
        · exact h2 s hs

theorem processed_fileReadsAux {cs : Nat} (hcs : 0 < cs) : ∀ (fuel : Nat) (data : Bytes),
    data.length ≤ fuel →
    processed (fileReadsAux cs fuel data) = (slices cs data).map (fun s => ⟨s, .nil⟩) := by
  intro fuel
  induction fuel with
  | zero =>
    intro data h
    have : data = [] := List.length_eq_zero.1 (by omega)
    subst this
    simp [fileReadsAux, processed, slices_nil hcs]
  | succ k ih =>
    intro data h
    by_cases hd : data = []
    · subst hd; simp [fileReadsAux, processed, slices_nil hcs]
    · have hlen : 0 < data.length := List.length_pos.2 hd
      rw [slices_cons hcs hd]
      simp only [fileReadsAux, if_neg hd]
      rw [processed_cons_nil _ rfl, ih (data.drop cs) (by rw [List.length_drop]; omega)]
      simp

theorem processed_fileReads {cs : Nat} (hcs : 0 < cs) (data : Bytes) :
    processed (fileReads cs data) = (slices cs data).map (fun s => ⟨s, .nil⟩) :=
  processed_fileReadsAux hcs _ _ (Nat.le_refl _)

theorem fileReadsAux_err (cs : Nat) : ∀ (fuel : Nat) (data : Bytes),
    ∀ r ∈ fileReadsAux cs fuel data, r.err ≠ .other := by
  intro fuel
  induction fuel with
  | zero => intro data r hr; simp [fileReadsAux] at hr; simp [hr]
  | succ k ih =>
    intro data r hr
    by_cases hd : data = []
    · simp [fileReadsAux, hd] at hr; simp [hr]
    · simp only [fileReadsAux, if_neg hd, List.mem_cons] at hr
      rcases hr with rfl | hr
      · simp
      · exact ih _ r hr

/-! ## Upload as a whole -/

theorem str_newline : str "\n" = [10] := by decide

theorem manifestText_eq (name : Bytes) (digests : List Bytes) :
    manifestText name digests = name ++ [10] ++ digests.flatMap (fun h => h ++ [10]) := by
  have : md5Line = fun h => h ++ [10] := by funext h; simp [md5Line, str_newline]
  simp [manifestText, headerLine, this, str_newline]

/-- A successful `Upload` is a successful run of its loop over the directory
that holds the header line. -/
theorem Upload_ok {name : Bytes} {reads : List ReadResult} {fs : FS}
    (h : (Upload (uploadOf name reads) fs).1.status = 200) :
    ∃ d0 d1, mkdirAll fs.temp = some d0 ∧ osCreate d0 linksName = some d1 ∧
      Upload (uploadOf name reads) fs =
        ((uploadLoop reads 0 (fileAppend d1 linksName (headerLine name))).1,
          { fs with temp := .dir (uploadLoop reads 0 (fileAppend d1 linksName (headerLine name))).2 }) := by
  unfold Upload uploadOf at h ⊢
  simp only [Bool.true_eq_false, if_false] at h ⊢
  cases hm : mkdirAll fs.temp with
  | none => rw [hm] at h; simp [httpError_status] at h
  | some d0 =>
    rw [hm] at h
    cases hc : osCreate d0 linksName with
    | none => simp only [hc] at h; simp [httpError_status] at h
    | some d1 => exact ⟨d0, d1, rfl, hc, by simp [hc]⟩

theorem start_lookup {d0 d1 : Dir} (hc : osCreate d0 linksName = some d1) (name m : Bytes) :
    dirLookup (fileAppend d1 linksName (headerLine name)) m =
      if m = linksName then some (.file (headerLine name)) else dirLookup d0 m := by
  obtain ⟨_, h1⟩ := osCreate_some hc
  rw [dirLookup_fileAppend, h1, if_pos rfl]
  by_cases hm : m = linksName
  · simp [hm]
  · rw [if_neg hm, if_neg hm, h1, if_neg hm]

/-- What a successful `Upload` leaves, for any results of the reads. -/
theorem Upload_spec {name : Bytes} {reads : List ReadResult} {fs : FS}
    (h : (Upload (uploadOf name reads) fs).1.status = 200) :
    ∃ d0 d, mkdirAll fs.temp = some d0 ∧ (Upload (uploadOf name reads) fs).2.temp = .dir d ∧
      (Upload (uploadOf name reads) fs).2.cwd = fs.cwd ∧
      dirLookup d linksName
        = some (.file (manifestText name ((processed reads).map (fun r => md5Hex r.data)))) ∧
      (∀ r ∈ processed reads, ∃ r' ∈ processed reads, md5Hex r'.data = md5Hex r.data ∧
        dirLookup d (chunkFileName (md5Hex r.data)) = some (.file r'.data)) ∧
      (∀ n, dirLookup d0 (tempChunkName n) = none → dirLookup d (tempChunkName n) = none) ∧
      (∀ i, i < (processed reads).length → dirLookup d (tempChunkName i) = none) ∧
      (reads.drop (processed reads).length = [] ∨
        ∃ r rest, reads.drop (processed reads).length = r :: rest ∧ r.err = .eof) := by
  obtain ⟨d0, d1, hm, hc, hu⟩ := Upload_ok h
  rw [hu] at h ⊢
  have hL := start_lookup hc name linksName
  rw [if_pos rfl] at hL
  obtain ⟨i1, i2, _, i4, i5, i6⟩ := uploadLoop_spec reads 0 _ _ hL h
  refine ⟨d0, _, hm, rfl, rfl, ?_, i2, ?_, ?_, i6⟩
  · rw [i1, manifestText, List.flatMap_map]
  · intro n hn
    apply i4
    rw [start_lookup hc, if_neg (tempChunkName_ne_links n), hn]
  · intro i hi
    have := i5 i hi
    rwa [Nat.zero_add] at this

/-! ## Claims about Upload -/

/-- C3. For every buffer size `cs > 0`, every file name and every input read in
full buffers, a successful `Upload` leaves `links.txt` equal to the file name
and a newline followed, for each consecutive slice of `cs` bytes of the input
in input order, by the lowercase hex MD5 digest of the slice and one newline.
The slices make up the input, none is empty or longer than `cs`, and there are
`⌈length / cs⌉` of them, so none for an empty input. -/
theorem upload_manifest_content (cs : Nat) (hcs : 0 < cs) (name data : Bytes) (fs : FS)
    (hok : (Upload (uploadOf name (fileReads cs data)) fs).1.status = 200) :
    ∃ d, (Upload (uploadOf name (fileReads cs data)) fs).2.temp = .dir d ∧
      dirLookup d linksName
        = some (.file (name ++ [10] ++ (slices cs data).flatMap (fun s => md5Hex s ++ [10]))) ∧
      (slices cs data).flatten = data ∧
      (∀ s ∈ slices cs data, 1 ≤ s.length ∧ s.length ≤ cs) ∧
      (slices cs data).length = (data.length + cs - 1) / cs := by
  obtain ⟨_, d, _, hd, _, hl, _⟩ := Upload_spec hok
  obtain ⟨h1, h2⟩ := slices_props hcs data.length data (Nat.le_refl _)
  refine ⟨d, hd, ?_, h1, h2, slices_length cs data⟩
  rw [hl, manifestText_eq, processed_fileReads hcs, List.map_map, List.flatMap_map]
  rfl

set_option maxRecDepth 100000 in
/-- The scenario of the specification for C3: 120 bytes `A` read into a buffer
of 50 bytes give the three lines of the slices of 50, 50 and 20 bytes. -/
theorem upload_manifest_content_witness :
    0 < 50 ∧
    (Upload (uploadOf (str "f.bin") (fileReads 50 (List.replicate 120 65))) ⟨.missing, []⟩).1.status
      = 200 ∧
    (∃ d, (Upload (uploadOf (str "f.bin") (fileReads 50 (List.replicate 120 65)))
          ⟨.missing, []⟩).2.temp = .dir d ∧
      dirLookup d linksName
        = some (.file (str "f.bin" ++ [10] ++ (slices 50 (List.replicate 120 65)).flatMap
            (fun s => md5Hex s ++ [10]))) ∧
      (slices 50 (List.replicate 120 65)).flatten = List.replicate 120 65 ∧
      (∀ s ∈ slices 50 (List.replicate 120 65), 1 ≤ s.length ∧ s.length ≤ 50) ∧
      (slices 50 (List.replicate 120 65)).length = ((List.replicate 120 65).length + 50 - 1) / 50) ∧
    str "f.bin" ++ [10] ++ (slices 50 (List.replicate 120 65)).flatMap (fun s => md5Hex s ++ [10])
      = str ("f.bin\n1e2d1a8f03accd4907d668b183c2f9f0\n1e2d1a8f03accd4907d668b183c2f9f0\n"
          ++ "76d36e98f312e98ff908c8c82c8dd623\n") :=
  ⟨by decide, by decide,
    upload_manifest_content 50 (by decide) (str "f.bin") (List.replicate 120 65) ⟨.missing, []⟩
      (by decide),
    by decide⟩

/-- C4, as the code behaves. For every buffer size `cs > 0` and every input
read in full buffers, after a successful `Upload` the upload directory holds,
for every digest `h` listed in `links.txt`, a file `h.zip` whose bytes have hex
MD5 digest `h` and whose length is at least 1 and at most `cs`; no
`temp_chunk_N` is left for a number `N` below the number of chunks of this
upload, and none is there that was not there before the upload. -/
theorem upload_chunk_store (cs : Nat) (hcs : 0 < cs) (name data : Bytes) (fs : FS)
    (hok : (Upload (uploadOf name (fileReads cs data)) fs).1.status = 200) :
    ∃ d0 d, mkdirAll fs.temp = some d0 ∧
      (Upload (uploadOf name (fileReads cs data)) fs).2.temp = .dir d ∧
      dirLookup d (str "links.txt")
        = some (.file (manifestText name ((slices cs data).map md5Hex))) ∧
      (∀ h ∈ (slices cs data).map md5Hex, ∃ c,
        dirLookup d (h ++ str ".zip") = some (.file c) ∧ md5Hex c = h ∧
          1 ≤ c.length ∧ c.length ≤ cs) ∧
      (∀ n, n < (slices cs data).length →
        dirLookup d (str "temp_chunk_" ++ decimal n) = none) ∧
      (∀ n, dirLookup d0 (str "temp_chunk_" ++ decimal n) = none →
        dirLookup d (str "temp_chunk_" ++ decimal n) = none) := by
  obtain ⟨d0, d, hm, hd, _, hl, hz, ht0, ht, _⟩ := Upload_spec hok
  obtain ⟨_, h2⟩ := slices_props hcs data.length data (Nat.le_refl _)
  have hp := processed_fileReads hcs data
  refine ⟨d0, d, hm, hd, ?_, ?_, ?_, ht0⟩
  · show dirLookup d linksName = _
    rw [hl, hp, List.map_map]
    rfl
  · intro h hh
    obtain ⟨s, hs, rfl⟩ := List.mem_map.1 hh
    have hr : (⟨s, .nil⟩ : ReadResult) ∈ processed (fileReads cs data) := by
      rw [hp]; exact List.mem_map.2 ⟨s, hs, rfl⟩
    obtain ⟨r', hr', he, hlk⟩ := hz _ hr
    rw [hp] at hr'
    obtain ⟨s', hs', rfl⟩ := List.mem_map.1 hr'
    exact ⟨s', hlk, he, h2 s' hs'⟩
  · intro n hn
    apply ht
    rw [hp, List.length_map]
    exact hn

set_option maxRecDepth 100000 in
/-- The scenario of the specification for C4: 120 bytes `A` and a buffer of 50
bytes. -/
theorem upload_chunk_store_witness :
    0 < 50 ∧
    (Upload (uploadOf (str "a.txt") (fileReads 50 (List.replicate 120 65))) ⟨.missing, []⟩).1.status
      = 200 ∧
    ∃ d0 d, mkdirAll TempNode.missing = some d0 ∧
      (Upload (uploadOf (str "a.txt") (fileReads 50 (List.replicate 120 65)))
        ⟨.missing, []⟩).2.temp = .dir d ∧
      dirLookup d (str "links.txt")
        = some (.file (manifestText (str "a.txt")
            ((slices 50 (List.replicate 120 65)).map md5Hex))) ∧
      (∀ h ∈ (slices 50 (List.replicate 120 65)).map md5Hex, ∃ c,
        dirLookup d (h ++ str ".zip") = some (.file c) ∧ md5Hex c = h ∧
          1 ≤ c.length ∧ c.length ≤ 50) ∧
      (∀ n, n < (slices 50 (List.replicate 120 65)).length →
        dirLookup d (str "temp_chunk_" ++ decimal n) = none) ∧
      (∀ n, dirLookup d0 (str "temp_chunk_" ++ decimal n) = none →
        dirLookup d (str "temp_chunk_" ++ decimal n) = none) :=
  ⟨by decide, by decide,
    upload_chunk_store 50 (by decide) (str "a.txt") (List.replicate 120 65) ⟨.missing, []⟩
      (by decide)⟩

set_option maxRecDepth 100000 in
/-- C4 fails as stated. A file `temp_chunk_7` that is in `./temp` before the
upload of one byte is still there after it, though the upload succeeds. Such a
file is what an upload leaves that stops between the creation of its chunk file
and the renaming: an upload whose renaming fails leaves `temp_chunk_0`, and the
successful upload of an empty file after it leaves that file where it is. -/
theorem upload_keeps_stale_temp_chunk :
    Upload (uploadOf (str "f") (fileReads 50 [1])) ⟨.dir [(str "temp_chunk_7", .file [9])], []⟩
      = (⟨200, str "File uploaded and split successfully"⟩,
          ⟨.dir [(str "links.txt", .file (str "f\n55a54008ad1ba589aa210d2629c1df41\n")),
            (str "55a54008ad1ba589aa210d2629c1df41.zip", .file [1]),
            (str "temp_chunk_7", .file [9])], []⟩) ∧
    Upload (uploadOf (str "f") (fileReads 50 [1]))
        ⟨.dir [(str "55a54008ad1ba589aa210d2629c1df41.zip", .dir)], []⟩
      = (httpError "Error renaming chunk file" 500,
          ⟨.dir [(str "temp_chunk_0", .file [1]), (str "links.txt", .file (str "f\n")),
            (str "55a54008ad1ba589aa210d2629c1df41.zip", .dir)], []⟩) ∧
    Upload (uploadOf (str "g") (fileReads 50 []))
        ⟨.dir [(str "temp_chunk_0", .file [1]), (str "links.txt", .file (str "f\n")),
          (str "55a54008ad1ba589aa210d2629c1df41.zip", .dir)], []⟩
      = (⟨200, str "File uploaded and split successfully"⟩,
          ⟨.dir [(str "links.txt", .file (str "g\n")), (str "temp_chunk_0", .file [1]),
            (str "55a54008ad1ba589aa210d2629c1df41.zip", .dir)], []⟩) := by
  decide

theorem processed_append_eof (body rest : List ReadResult)
    (h : ∀ r ∈ body, r.err = .nil) : processed (body ++ ReadResult.mk [] .eof :: rest) = body := by
  induction body with
  | nil => exact processed_cons_stop rest (by simp)
  | cons r rs ih =>
    rw [List.cons_append, processed_cons_nil _ (h r (List.mem_cons_self _ _)),
      ih (fun x hx => h x (List.mem_cons_of_mem _ hx))]

theorem filter_nonempty_append_eof (body : List ReadResult)
    (h : ∀ r ∈ body, 0 < r.data.length) :
    (body ++ [ReadResult.mk [] .eof]).filter (fun r => 0 < r.data.length) = body := by
  rw [List.filter_append, List.filter_eq_self.2 (fun r hr => by simpa using h r hr)]
  simp

/-- C9. For every sequence of results that the reads of the uploaded file
deliver, reads of `n > 0` bytes without error and then the read of no byte that
reports the end of the stream, a successful `Upload` appends a line to
`links.txt` for exactly the reads that yield `n > 0` bytes, in their order, the
line being the digest of exactly those bytes, and stores for each of them a
chunk with that digest; the loop runs up to the read that reports the end of
the stream with no byte, which gets no line, and every chunk stored for a line
holds at least one byte. -/
theorem upload_emits_nonempty_reads (name : Bytes) (body : List ReadResult) (fs : FS)
    (hbody : ∀ r ∈ body, r.err = .nil ∧ 0 < r.data.length)
    (hok : (Upload (uploadOf name (body ++ [ReadResult.mk [] .eof])) fs).1.status = 200) :
    ∃ d, (Upload (uploadOf name (body ++ [ReadResult.mk [] .eof])) fs).2.temp = .dir d ∧
      dirLookup d (str "links.txt")
        = some (.file (name ++ [10] ++
            ((body ++ [ReadResult.mk [] .eof]).filter (fun r => 0 < r.data.length)).flatMap
              (fun r => md5Hex r.data ++ [10]))) ∧
      (∀ r ∈ body ++ [ReadResult.mk [] .eof], 0 < r.data.length →
        ∃ c, dirLookup d (md5Hex r.data ++ str ".zip") = some (.file c) ∧
          md5Hex c = md5Hex r.data ∧ 0 < c.length) := by
  obtain ⟨_, d, _, hd, _, hl, hz, _⟩ := Upload_spec hok
  have hp := processed_append_eof body [] (fun r hr => (hbody r hr).1)
  have hf := filter_nonempty_append_eof body (fun r hr => (hbody r hr).2)
  rw [hp] at hl hz
  refine ⟨d, hd, ?_, ?_⟩
  · show dirLookup d linksName = _
    rw [hl, hf, manifestText_eq, List.flatMap_map]
  · intro r hr hpos
    have hrb : r ∈ body := by
      rcases List.mem_append.1 hr with h | h
      · exact h
      · rw [List.mem_singleton.1 h] at hpos
        exact absurd hpos (by simp)
    obtain ⟨r', hr', he, hlk⟩ := hz r hrb
    exact ⟨r'.data, hlk, he, (hbody r' hr').2⟩

set_option maxRecDepth 100000 in
/-- Reads of two bytes, of one byte and of two bytes again, then the end of the
stream, for C9. -/
theorem upload_emits_nonempty_reads_witness :
    (∀ r ∈ ([⟨[1, 2], .nil⟩, ⟨[3], .nil⟩, ⟨[1, 2], .nil⟩] : List ReadResult),
      r.err = .nil ∧ 0 < r.data.length) ∧
    (Upload (uploadOf (str "f")
      ([⟨[1, 2], .nil⟩, ⟨[3], .nil⟩, ⟨[1, 2], .nil⟩] ++ [ReadResult.mk [] .eof])) ⟨.missing, []⟩).1.status
      = 200 ∧
    ∃ d, (Upload (uploadOf (str "f")
        ([⟨[1, 2], .nil⟩, ⟨[3], .nil⟩, ⟨[1, 2], .nil⟩] ++ [ReadResult.mk [] .eof])) ⟨.missing, []⟩).2.temp
        = .dir d ∧
      dirLookup d (str "links.txt")
        = some (.file (str "f" ++ [10] ++
            ((([⟨[1, 2], .nil⟩, ⟨[3], .nil⟩, ⟨[1, 2], .nil⟩] : List ReadResult)
              ++ [ReadResult.mk [] .eof]).filter (fun r => 0 < r.data.length)).flatMap
              (fun r => md5Hex r.data ++ [10]))) ∧
      (∀ r ∈ ([⟨[1, 2], .nil⟩, ⟨[3], .nil⟩, ⟨[1, 2], .nil⟩] : List ReadResult) ++ [ReadResult.mk [] .eof],
        0 < r.data.length →
        ∃ c, dirLookup d (md5Hex r.data ++ str ".zip") = some (.file c) ∧
          md5Hex c = md5Hex r.data ∧ 0 < c.length) :=
  ⟨by decide, by decide,
    upload_emits_nonempty_reads (str "f") [⟨[1, 2], .nil⟩, ⟨[3], .nil⟩, ⟨[1, 2], .nil⟩]
      ⟨.missing, []⟩ (by decide) (by decide)⟩

/-! ## The manifest codec -/


theorem dropCR_of_safe {l : Bytes} (h : l.getLast? ≠ some 13) : dropCR l = l := by
  simp [dropCR, h]

theorem scanLinesAux_line (line : Bytes) : ∀ (acc rest : Bytes), 10 ∉ line →
    acc.length + line.length < maxScanTokenSize →
    scanLinesAux acc (line ++ 10 :: rest)
      = (dropCR (acc.reverse ++ line) :: (scanLinesAux [] rest).1, (scanLinesAux [] rest).2) := by
  induction line with
  | nil =>
    intro acc rest _ _
    simp [scanLinesAux]
  | cons b t ih =>
    intro acc rest hnl hlen
    have hb : b ≠ 10 := fun e => hnl (by simp [e])
    have ht : 10 ∉ t := fun e => hnl (List.mem_cons_of_mem _ e)
    simp only [List.length_cons] at hlen
    have hlt : ¬ maxScanTokenSize ≤ acc.length + 1 := by omega
    rw [List.cons_append, scanLinesAux, if_neg hb, if_neg hlt,
      ih (b :: acc) rest ht (by simp only [List.length_cons]; omega)]
    simp

theorem scanLines_lines (lines : List Bytes) (h : ∀ l ∈ lines, LineSafe l) :
    scanLines (lines.flatMap (fun l => l ++ [10])) = (lines, false) := by
  induction lines with
  | nil => simp [scanLines, scanLinesAux]
  | cons l ls ih =>
    obtain ⟨h1, h2, h3⟩ := h l (List.mem_cons_self _ _)
    have ih' := ih (fun x hx => h x (List.mem_cons_of_mem _ hx))
    unfold scanLines at ih' ⊢
    rw [List.flatMap_cons, List.append_assoc, List.singleton_append,
      scanLinesAux_line l [] _ h1 (by simpa using h3), ih']
    simp [dropCR_of_safe h2]

theorem hexDigest_lineSafe {h : Bytes} (hh : IsHexDigest h) : LineSafe h := by
  obtain ⟨hl, hc⟩ := hh
  refine ⟨fun e => ?_, fun e => ?_, ?_⟩
  · exact absurd (hc 10 e) (by decide)
  · exact absurd (hc 13 (List.mem_of_getLast?_eq_some e)) (by decide)
  · rw [hl]; decide

theorem readLinks_manifestText (name : Bytes) (digests : List Bytes) (hn : LineSafe name)
    (hd : ∀ h ∈ digests, LineSafe h) :
    readLinks (manifestText name digests) none = .ok (name, digests) := by
  have hs : scanLines (manifestText name digests) = (name :: digests, false) := by
    have := scanLines_lines (name :: digests) (by
      intro l hl
      rcases List.mem_cons.1 hl with rfl | hl
      · exact hn
      · exact hd l hl)
    rw [manifestText_eq]
    simpa [List.flatMap_cons] using this
  simp [readLinks, hs, scanErr]

/-- C10. For every file name that holds no newline, does not end in a carriage
return and is shorter than the scanner's limit of 64 KiB, and for every list of
hex digests, decoding as `DownloadFile` does the text that `Upload` writes to
`links.txt` for that name and list gives back that name and that list. -/
theorem manifest_codec_round_trip (name : Bytes) (digests : List Bytes)
    (hnl : 10 ∉ name) (hcr : name.getLast? ≠ some 13) (hlen : name.length < 64 * 1024)
    (hd : ∀ h ∈ digests, IsHexDigest h) :
    readLinks (headerLine name ++ digests.flatMap md5Line) none = .ok (name, digests) :=
  readLinks_manifestText name digests ⟨hnl, hcr, hlen⟩ (fun h hh => hexDigest_lineSafe (hd h hh))

set_option maxRecDepth 100000 in
/-- The manifest of the scenario of the specification, for C10. -/
theorem manifest_codec_round_trip_witness :
    10 ∉ str "my file.bin" ∧ (str "my file.bin").getLast? ≠ some 13 ∧
    (str "my file.bin").length < 64 * 1024 ∧
    (∀ h ∈ [str "1e2d1a8f03accd4907d668b183c2f9f0", str "1e2d1a8f03accd4907d668b183c2f9f0",
        str "76d36e98f312e98ff908c8c82c8dd623"], IsHexDigest h) ∧
    readLinks (headerLine (str "my file.bin") ++
        [str "1e2d1a8f03accd4907d668b183c2f9f0", str "1e2d1a8f03accd4907d668b183c2f9f0",
          str "76d36e98f312e98ff908c8c82c8dd623"].flatMap md5Line) none
      = .ok (str "my file.bin",
          [str "1e2d1a8f03accd4907d668b183c2f9f0", str "1e2d1a8f03accd4907d668b183c2f9f0",
            str "76d36e98f312e98ff908c8c82c8dd623"]) :=
  ⟨by decide, by decide, by decide, by decide,
    manifest_codec_round_trip _ _ (by decide) (by decide) (by decide) (by decide)⟩

/-! ## Claims about DownloadFile on given inputs -/

/-- C7. When the body of the manifest is empty, the decoding step of
`DownloadFile` fails, `DownloadFile` returns that error, sends no request but
the one for the manifest and leaves the file system as it was. -/
theorem empty_manifest_fails (http : Server) (base : Bytes) (fs : FS) (st : Nat)
    (e : Option Bytes) (h : http (linksURL base) = .response st [] e) :
    readLinks [] e = .error (str "failed to read filename from links file") ∧
    (DownloadFile http base fs).result
      = .error (str "failed to read filename from links file") ∧
    (DownloadFile http base fs).requests = [linksURL base] ∧
    (DownloadFile http base fs).fs = fs := by
  have hr : readLinks [] e = .error (str "failed to read filename from links file") := by
    simp [readLinks, scanLines, scanLinesAux]
  refine ⟨hr, ?_, ?_, ?_⟩ <;> simp [DownloadFile, h, hr]

set_option maxRecDepth 100000 in
/-- A server that answers every request with an empty body, for C7. -/
theorem empty_manifest_fails_witness :
    (fun _ => HttpResult.response 200 [] none : Server) (linksURL (str "http://h/"))
      = .response 200 [] none ∧
    readLinks [] none = .error (str "failed to read filename from links file") ∧
    (DownloadFile (fun _ => .response 200 [] none) (str "http://h/") ⟨.missing, []⟩).result
      = .error (str "failed to read filename from links file") ∧
    (DownloadFile (fun _ => .response 200 [] none) (str "http://h/") ⟨.missing, []⟩).requests
      = [linksURL (str "http://h/")] ∧
    (DownloadFile (fun _ => .response 200 [] none) (str "http://h/") ⟨.missing, []⟩).fs
      = ⟨.missing, []⟩ :=
  ⟨rfl, empty_manifest_fails (fun _ => .response 200 [] none) (str "http://h/") ⟨.missing, []⟩
    200 none rfl⟩

set_option maxRecDepth 100000 in
/-- C5 fails on the code. For the base `http://h/store` the manifest is asked
at `http://h/storelinks.txt`, the base and `links.txt` with nothing between
them, and the chunk `ab` at `http://h/store/ab.zip`. -/
theorem manifest_url_without_separator :
    (DownloadFile (fun _ => .response 200 (str "f\nab\n") none) (str "http://h/store")
        ⟨.missing, []⟩).requests
      = [str "http://h/storelinks.txt", str "http://h/store/ab.zip"] ∧
    str "http://h/storelinks.txt" ≠ str "http://h/store" ++ str "/links.txt" := by
  decide

set_option maxRecDepth 100000 in
/-- C2 fails on the code. Over the store of the scenario of the specification
(120 bytes `A`, chunks of 50 bytes, manifest `f.bin, h1, h1, h3`) `DownloadFile`
fetches `h1` twice and `h3` once, succeeds, and writes 70 bytes, not the 120
that the manifest's order gives. Over a manifest `b, a` of two chunks `[1]` and
`[2]` it writes `[2, 1]`, the order of the names, not `[1, 2]`. -/
theorem download_merges_by_name :
    (DownloadFile
        (storeServer
          [(str "links.txt", .file (str ("f.bin\n1e2d1a8f03accd4907d668b183c2f9f0\n"
              ++ "1e2d1a8f03accd4907d668b183c2f9f0\n76d36e98f312e98ff908c8c82c8dd623\n"))),
            (str "1e2d1a8f03accd4907d668b183c2f9f0.zip", .file (List.replicate 50 65)),
            (str "76d36e98f312e98ff908c8c82c8dd623.zip", .file (List.replicate 20 65))]
          (str "http://h"))
        (str "http://h") ⟨.missing, []⟩).result = .ok () ∧
    (DownloadFile
        (storeServer
          [(str "links.txt", .file (str ("f.bin\n1e2d1a8f03accd4907d668b183c2f9f0\n"
              ++ "1e2d1a8f03accd4907d668b183c2f9f0\n76d36e98f312e98ff908c8c82c8dd623\n"))),
            (str "1e2d1a8f03accd4907d668b183c2f9f0.zip", .file (List.replicate 50 65)),
            (str "76d36e98f312e98ff908c8c82c8dd623.zip", .file (List.replicate 20 65))]
          (str "http://h"))
        (str "http://h") ⟨.missing, []⟩).requests
      = [str "http://hlinks.txt", str "http://h/1e2d1a8f03accd4907d668b183c2f9f0.zip",
          str "http://h/1e2d1a8f03accd4907d668b183c2f9f0.zip",
          str "http://h/76d36e98f312e98ff908c8c82c8dd623.zip"] ∧
    dirLookup (DownloadFile
        (storeServer
          [(str "links.txt", .file (str ("f.bin\n1e2d1a8f03accd4907d668b183c2f9f0\n"
              ++ "1e2d1a8f03accd4907d668b183c2f9f0\n76d36e98f312e98ff908c8c82c8dd623\n"))),
            (str "1e2d1a8f03accd4907d668b183c2f9f0.zip", .file (List.replicate 50 65)),
            (str "76d36e98f312e98ff908c8c82c8dd623.zip", .file (List.replicate 20 65))]
          (str "http://h"))
        (str "http://h") ⟨.missing, []⟩).fs.cwd (str "f.bin")
      = some (.file (List.replicate 70 65)) ∧
    (DownloadFile
        (storeServer
          [(str "links.txt", .file (str "f\nb\na\n")), (str "b.zip", .file [1]),
            (str "a.zip", .file [2])]
          (str "http://h"))
        (str "http://h") ⟨.missing, []⟩).result = .ok () ∧
    dirLookup (DownloadFile
        (storeServer
          [(str "links.txt", .file (str "f\nb\na\n")), (str "b.zip", .file [1]),
            (str "a.zip", .file [2])]
          (str "http://h"))
        (str "http://h") ⟨.missing, []⟩).fs.cwd (str "f")
      = some (.file [2, 1]) := by
  decide

/-! ## The download loop -/

theorem downloadChunk_fails {http : Server} {url name : Bytes} {d : Dir} {s : Nat} {b : Bytes}
    {e : Option Bytes} (h : http url = .response s b e) (hf : s ≠ 200 ∨ e ≠ none) :
    ∃ cause, (downloadChunk http url name d).1 = .error cause := by
  unfold downloadChunk
  rw [h]
  by_cases hs : s = 200
  · have he : e ≠ none := hf.resolve_left (fun h => h hs)
    simp only [hs, ne_eq, not_true_eq_false, if_false]
    cases hc : osCreate d name with
    | none => exact ⟨_, rfl⟩
    | some d1 =>
      cases e with
      | none => exact absurd rfl he
      | some x => exact ⟨_, rfl⟩
  · simp only [ne_eq, hs, not_false_eq_true, if_true]
    exact ⟨_, rfl⟩

theorem downloadChunks_cons_ok {http : Server} {base id : Bytes} {rest : List Bytes} {d : Dir}
    (h : (downloadChunk http (chunkURL base id) id d).1 = .ok ()) :
    downloadChunks http base (id :: rest) d =
      ((downloadChunks http base rest (downloadChunk http (chunkURL base id) id d).2.1).1,
        (downloadChunks http base rest (downloadChunk http (chunkURL base id) id d).2.1).2.1,
        (downloadChunk http (chunkURL base id) id d).2.2 ++
          (downloadChunks http base rest (downloadChunk http (chunkURL base id) id d).2.1).2.2) := by
  rcases hx : downloadChunk http (chunkURL base id) id d with ⟨r, d1, reqs⟩
  rw [hx] at h
  simp only at h
  subst h
  simp [downloadChunks, hx]

theorem downloadChunks_cons_error {http : Server} {base id : Bytes} {rest : List Bytes} {d : Dir}
    {cause : Bytes} (h : (downloadChunk http (chunkURL base id) id d).1 = .error cause) :
    downloadChunks http base (id :: rest) d =
      (.error (str "failed to download chunk " ++ id ++ str ": " ++ cause),
        (downloadChunk http (chunkURL base id) id d).2.1,
        (downloadChunk http (chunkURL base id) id d).2.2) := by
  rcases hx : downloadChunk http (chunkURL base id) id d with ⟨r, d1, reqs⟩
  rw [hx] at h
  simp only at h
  subst h
  simp [downloadChunks, hx]

theorem downloadChunks_cons_result (http : Server) (base id : Bytes) (rest : List Bytes) (d : Dir) :
    (downloadChunks http base (id :: rest) d).1 = .ok () →
      (downloadChunk http (chunkURL base id) id d).1 = .ok () := by
  intro h
  rcases hx : downloadChunk http (chunkURL base id) id d with ⟨r, d1, reqs⟩
  cases r with
  | ok u => rfl
  | error e => simp [downloadChunks, hx] at h

theorem downloadChunks_append {http : Server} {base : Bytes} (pre : List Bytes) :
    ∀ (rest : List Bytes) (d : Dir), (downloadChunks http base pre d).1 = .ok () →
      (downloadChunks http base (pre ++ rest) d).1
        = (downloadChunks http base rest (downloadChunks http base pre d).2.1).1 := by
  induction pre with
  | nil => intro rest d _; simp [downloadChunks]
  | cons x xs ih =>
    intro rest d h
    have hx := downloadChunks_cons_result http base x xs d h
    rw [downloadChunks_cons_ok hx] at h
    rw [List.cons_append, downloadChunks_cons_ok hx, downloadChunks_cons_ok hx]
    exact ih rest _ h

/-- C6, as the code behaves. For every manifest and every position in it: when
the chunks before that position download and the fetch of the chunk at that
position yields a status other than 200 or a body that fails, `DownloadFile`
returns the error `failed to download chunk <identifier>: <cause>`, which names
the identifier of that chunk; the files outside of `./temp` are as before. -/
theorem chunk_failure_names_identifier (http : Server) (base : Bytes) (fs : FS) (st : Nat)
    (body : Bytes) (bodyErr : Option Bytes) (fileName : Bytes) (pre post : List Bytes)
    (id : Bytes) (d0 : Dir) (s : Nat) (b : Bytes) (e : Option Bytes)
    (hlinks : http (linksURL base) = .response st body bodyErr)
    (hdec : readLinks body bodyErr = .ok (fileName, pre ++ id :: post))
    (hdir : mkdirAll fs.temp = some d0)
    (hpre : (downloadChunks http base pre d0).1 = .ok ())
    (hfetch : http (chunkURL base id) = .response s b e)
    (hfail : s ≠ 200 ∨ e ≠ none) :
    ∃ cause, (DownloadFile http base fs).result
        = .error (str "failed to download chunk " ++ id ++ str ": " ++ cause) ∧
      (DownloadFile http base fs).fs.cwd = fs.cwd := by
  obtain ⟨cause, hc⟩ := @downloadChunk_fails http (chunkURL base id) id
    (downloadChunks http base pre d0).2.1 s b e hfetch hfail
  have hr : (downloadChunks http base (pre ++ id :: post) d0).1
      = .error (str "failed to download chunk " ++ id ++ str ": " ++ cause) := by
    rw [downloadChunks_append pre _ d0 hpre, downloadChunks_cons_error hc]
  refine ⟨cause, ?_, ?_⟩ <;> simp [DownloadFile, hlinks, hdec, hdir, hr]

set_option maxRecDepth 100000 in
/-- A manifest of three chunks whose second chunk is answered with 404, for C6. -/
theorem chunk_failure_names_identifier_witness :
    (fun url => if url = str "http://h/links.txt" then .response 200 (str "f\ncd\nab\nef\n") none
        else if url = str "http://h//cd.zip" then .response 200 (str "x") none
        else .response 404 [] none : Server) (linksURL (str "http://h/"))
      = .response 200 (str "f\ncd\nab\nef\n") none ∧
    readLinks (str "f\ncd\nab\nef\n") none = .ok (str "f", [str "cd"] ++ str "ab" :: [str "ef"]) ∧
    mkdirAll TempNode.missing = some [] ∧
    (downloadChunks (fun url =>
        if url = str "http://h/links.txt" then .response 200 (str "f\ncd\nab\nef\n") none
        else if url = str "http://h//cd.zip" then .response 200 (str "x") none
        else .response 404 [] none) (str "http://h/") [str "cd"] []).1 = .ok () ∧
    (fun url => if url = str "http://h/links.txt" then .response 200 (str "f\ncd\nab\nef\n") none
        else if url = str "http://h//cd.zip" then .response 200 (str "x") none
        else .response 404 [] none : Server) (chunkURL (str "http://h/") (str "ab"))
      = .response 404 [] none ∧
    ((404 : Nat) ≠ 200 ∨ (none : Option Bytes) ≠ none) ∧
    ∃ cause, (DownloadFile (fun url =>
          if url = str "http://h/links.txt" then .response 200 (str "f\ncd\nab\nef\n") none
          else if url = str "http://h//cd.zip" then .response 200 (str "x") none
          else .response 404 [] none) (str "http://h/") ⟨.missing, []⟩).result
        = .error (str "failed to download chunk " ++ str "ab" ++ str ": " ++ cause) ∧
      (DownloadFile (fun url =>
          if url = str "http://h/links.txt" then .response 200 (str "f\ncd\nab\nef\n") none
          else if url = str "http://h//cd.zip" then .response 200 (str "x") none
          else .response 404 [] none) (str "http://h/") ⟨.missing, []⟩).fs.cwd
        = (⟨.missing, []⟩ : FS).cwd :=
  ⟨by decide, by decide, rfl, by decide, by decide, by decide,
    chunk_failure_names_identifier _ (str "http://h/") ⟨.missing, []⟩ 200 (str "f\ncd\nab\nef\n")
      none (str "f") [str "cd"] [str "ef"] (str "ab") [] 404 [] none
      (by decide) (by decide) rfl (by decide) (by decide) (by decide)⟩

set_option maxRecDepth 100000 in
/-- C6 fails as stated. The chunk `ab` answered with 404 gives the same error
when it is the first chunk of its manifest and when it is the second: the
message is `failed to download chunk ab: download failed with status 404`,
which holds neither the digit 1 nor the digit 2. -/
theorem chunk_failure_omits_position :
    (DownloadFile (fun url =>
        if url = str "http://h/links.txt" then .response 200 (str "f\nab\n") none
        else .response 404 [] none) (str "http://h/") ⟨.missing, []⟩).result
      = .error (str "failed to download chunk ab: download failed with status 404") ∧
    (DownloadFile (fun url =>
        if url = str "http://h/links.txt" then .response 200 (str "f\ncd\nab\n") none
        else if url = str "http://h//cd.zip" then .response 200 (str "x") none
        else .response 404 [] none) (str "http://h/") ⟨.missing, []⟩).result
      = .error (str "failed to download chunk ab: download failed with status 404") ∧
    ¬ (decimal 1).IsInfix (str "failed to download chunk ab: download failed with status 404") ∧
    ¬ (decimal 2).IsInfix (str "failed to download chunk ab: download failed with status 404") := by
  decide

/-! ## The order of names -/

theorem bytesLe_total : ∀ (a b : Bytes), bytesLe a b = true ∨ bytesLe b a = true
  | [], _ => Or.inl rfl
  | _ :: _, [] => Or.inr rfl
  | x :: xs, y :: ys => by
    simp only [bytesLe]
    by_cases h1 : x < y
    · simp [h1]
    · by_cases h2 : y < x
      · simp [h2]
      · simp only [h1, h2, if_false]
        exact bytesLe_total xs ys

theorem bytesLe_trans : ∀ (a b c : Bytes), bytesLe a b = true → bytesLe b c = true →
    bytesLe a c = true
  | [], _, _ => fun _ _ => rfl
  | _ :: _, [], _ => fun h _ => by simp [bytesLe] at h
  | _ :: _, _ :: _, [] => fun _ h => by simp [bytesLe] at h
  | x :: xs, y :: ys, z :: zs => by
    intro h1 h2
    simp only [bytesLe] at h1 h2 ⊢
    by_cases hxy : x < y
    · by_cases hyz : y < z
      · have : x < z := Nat.lt_trans hxy hyz
        simp [this]
      · by_cases hzy : z < y
        · simp [hyz, hzy] at h2
        · have : y = z := Nat.le_antisymm (Nat.not_lt.1 hzy) (Nat.not_lt.1 hyz)
          subst this
          simp [hxy]
    · by_cases hyx : y < x
      · simp [hxy, hyx] at h1
      · have hxy' : x = y := Nat.le_antisymm (Nat.not_lt.1 hyx) (Nat.not_lt.1 hxy)
        subst hxy'
        simp only [hxy, if_false] at h1
        by_cases hyz : x < z
        · simp [hyz]
        · by_cases hzy : z < x
          · simp [hyz, hzy] at h2
          · simp only [hyz, hzy, if_false] at h2 ⊢
            exact bytesLe_trans xs ys zs h1 h2

/-- Where `bytesLe` holds between two different names, the first is before the
second in the lexicographic order of their bytes. -/
theorem bytesLe_lex : ∀ (a b : Bytes), bytesLe a b = true → a ≠ b → List.Lex (· < ·) a b
  | [], [] => fun _ h => absurd rfl h
  | [], _ :: _ => fun _ _ => List.Lex.nil
  | _ :: _, [] => fun h _ => by simp [bytesLe] at h
  | x :: xs, y :: ys => by
    intro h hne
    simp only [bytesLe] at h
    by_cases hxy : x < y
    · exact List.Lex.rel hxy
    · by_cases hyx : y < x
      · simp [hxy, hyx] at h
      · have : x = y := Nat.le_antisymm (Nat.not_lt.1 hyx) (Nat.not_lt.1 hxy)
        subst this
        simp only [hxy, if_false] at h
        exact List.Lex.cons (bytesLe_lex xs ys h (fun e => hne (by rw [e])))

theorem insertSorted_perm (x : Bytes) : ∀ (l : List Bytes), (insertSorted x l).Perm (x :: l)
  | [] => List.Perm.refl _
  | y :: ys => by
    simp only [insertSorted]
    split
    · exact List.Perm.refl _
    · exact ((insertSorted_perm x ys).cons y).trans (List.Perm.swap x y ys)

theorem sortStrings_perm : ∀ (l : List Bytes), (sortStrings l).Perm l
  | [] => List.Perm.refl _
  | x :: xs => (insertSorted_perm x _).trans ((sortStrings_perm xs).cons x)

theorem insertSorted_sorted (x : Bytes) : ∀ (l : List Bytes),
    l.Pairwise (fun a b => bytesLe a b = true) →
    (insertSorted x l).Pairwise (fun a b => bytesLe a b = true)
  | [], _ => List.pairwise_singleton _ _
  | y :: ys, h => by
    simp only [insertSorted]
    obtain ⟨hy, hys⟩ := List.pairwise_cons.1 h
    by_cases hxy : bytesLe x y = true
    · rw [if_pos hxy]
      refine List.pairwise_cons.2 ⟨?_, h⟩
      intro z hz
      rcases List.mem_cons.1 hz with rfl | hz
      · exact hxy
      · exact bytesLe_trans _ _ _ hxy (hy z hz)
    · rw [if_neg hxy]
      have hyx : bytesLe y x = true := (bytesLe_total x y).resolve_left hxy
      refine List.pairwise_cons.2 ⟨?_, insertSorted_sorted x ys hys⟩
      intro z hz
      rcases List.mem_cons.1 ((insertSorted_perm x ys).mem_iff.1 hz) with rfl | hz
      · exact hyx
      · exact hy z hz

theorem sortStrings_sorted : ∀ (l : List Bytes),
    (sortStrings l).Pairwise (fun a b => bytesLe a b = true)
  | [] => List.Pairwise.nil
  | x :: xs => insertSorted_sorted x _ (sortStrings_sorted xs)

theorem sortStrings_strict {l : List Bytes} (h : l.Nodup) :
    (sortStrings l).Pairwise (fun a b => List.Lex (· < ·) a b) := by
  have h1 := sortStrings_sorted l
  have h2 : (sortStrings l).Pairwise (fun a b => a ≠ b) := (sortStrings_perm l).nodup_iff.2 h
  exact (h1.and h2).imp (fun hab => bytesLe_lex _ _ hab.1 hab.2)

/-! ## The names of a directory -/

theorem mem_dirNames (d : Dir) (n : Bytes) : n ∈ dirNames d ↔ dirLookup d n ≠ none := by
  induction d with
  | nil => simp [dirNames, dirLookup]
  | cons e rest ih =>
    obtain ⟨k, v⟩ := e
    simp only [dirNames, dirLookup, List.mem_cons, List.mem_filter]
    by_cases hk : k = n
    · subst hk; simp
    · simp [hk, Ne.symm hk, ih]

theorem dirNames_nodup (d : Dir) : (dirNames d).Nodup := by
  induction d with
  | nil => exact List.nodup_nil
  | cons e rest ih =>
    obtain ⟨k, v⟩ := e
    simp only [dirNames]
    refine List.nodup_cons.2 ⟨?_, ih.filter _⟩
    simp [List.mem_filter]

/-! ## mergeFiles -/

/-- The names `mergeFiles` copies, in the order in which it copies them. -/
theorem chunkFiles_eq (d : Dir) :
    sortStrings (((readDir d).filter (fun f => f.2 = false)).map Prod.fst)
      = sortStrings ((sortStrings (dirNames d)).filter (fun n => isDir d n = false)) := by
  congr 1
  unfold readDir
  rw [List.filter_map, List.map_map]
  have h1 : (Prod.fst ∘ fun n => (n, isDir d n)) = (id : Bytes → Bytes) := by funext n; rfl
  have h2 : ((fun f : Bytes × Bool => decide (f.2 = false)) ∘ fun n => (n, isDir d n))
      = fun n => decide (isDir d n = false) := by funext n; rfl
  rw [h1, h2, List.map_id]

theorem isDir_false_iff (d : Dir) (n : Bytes) :
    (dirLookup d n ≠ none ∧ isDir d n = false) ↔ ∃ c, dirLookup d n = some (.file c) := by
  unfold isDir
  cases h : dirLookup d n with
  | none => simp
  | some v => cases v <;> simp

theorem mem_chunkFiles (d : Dir) (n : Bytes) :
    n ∈ sortStrings (((readDir d).filter (fun f => f.2 = false)).map Prod.fst)
      ↔ ∃ c, dirLookup d n = some (.file c) := by
  rw [chunkFiles_eq, (sortStrings_perm _).mem_iff, List.mem_filter, (sortStrings_perm _).mem_iff,
    mem_dirNames, ← isDir_false_iff]
  simp

theorem chunkFiles_strict (d : Dir) :
    (sortStrings (((readDir d).filter (fun f => f.2 = false)).map Prod.fst)).Pairwise
      (fun a b => List.Lex (· < ·) a b) := by
  rw [chunkFiles_eq]
  exact sortStrings_strict (((sortStrings_perm _).nodup_iff.2 (dirNames_nodup d)).filter _)

theorem mergeLoop_files (d : Dir) : ∀ (names : List Bytes) (out : Bytes),
    (∀ n ∈ names, ∃ c, dirLookup d n = some (.file c)) →
    mergeLoop d names out = (.ok (), out ++ names.flatMap (fileContent d)) := by
  intro names
  induction names with
  | nil => intro out _; simp [mergeLoop]
  | cons n ns ih =>
    intro out h
    obtain ⟨c, hc⟩ := h n (List.mem_cons_self _ _)
    rw [mergeLoop]
    simp only [hc]
    rw [ih _ (fun x hx => h x (List.mem_cons_of_mem _ hx))]
    simp [List.flatMap_cons, fileContent, hc]

/-- What `mergeFiles` does once the final file is created and `./temp` is a
directory. -/
theorem mergeFiles_run {fileName : Bytes} {fs : FS} {cwd1 d : Dir}
    (hc : osCreate fs.cwd fileName = some cwd1) (ht : fs.temp = .dir d) :
    (mergeFiles fileName fs).1 = .ok () ∧
    dirLookup (mergeFiles fileName fs).2.cwd fileName
      = some (.file ((sortStrings (((readDir d).filter (fun f => f.2 = false)).map
          Prod.fst)).flatMap (fileContent d))) := by
  have hl := mergeLoop_files d _ [] (fun n hn => (mem_chunkFiles d n).1 hn)
  obtain ⟨_, h1⟩ := osCreate_some hc
  unfold mergeFiles
  simp only [hc, ht, hl]
  refine ⟨trivial, ?_⟩
  rw [dirLookup_fileAppend, if_pos rfl, h1, if_pos rfl]
  simp

/-- C8. For every state of `./temp` and every final file outside of it, a
successful `mergeFiles` leaves the final file with the bytes of all entries of
`./temp` that are files, each taken once, in ascending lexicographic order of
their names: there is a list of names and contents, strictly ascending in the
names, that holds exactly the files of `./temp`, and the final file is the
concatenation of its contents. -/
theorem mergeFiles_output (fileName : Bytes) (fs : FS)
    (h : (mergeFiles fileName fs).1 = .ok ()) :
    ∃ d, ∃ l : List (Bytes × Bytes), fs.temp = .dir d ∧
      (∀ n c, (n, c) ∈ l ↔ dirLookup d n = some (.file c)) ∧
      l.Pairwise (fun a b => List.Lex (· < ·) a.1 b.1) ∧
      dirLookup (mergeFiles fileName fs).2.cwd fileName = some (.file (l.flatMap Prod.snd)) := by
  cases hc : osCreate fs.cwd fileName with
  | none => simp [mergeFiles, hc] at h
  | some cwd1 =>
    cases ht : fs.temp with
    | missing => simp [mergeFiles, hc, ht] at h
    | notDir => simp [mergeFiles, hc, ht] at h
    | dir d =>
      obtain ⟨_, hout⟩ := mergeFiles_run hc ht
      refine ⟨d, (sortStrings (((readDir d).filter (fun f => f.2 = false)).map Prod.fst)).map
        (fun n => (n, fileContent d n)), rfl, ?_, ?_, ?_⟩
      · intro n c
        rw [List.mem_map]
        constructor
        · rintro ⟨x, hx, he⟩
          obtain ⟨c', hc'⟩ := (mem_chunkFiles d x).1 hx
          simp only [Prod.mk.injEq] at he
          obtain ⟨rfl, rfl⟩ := he
          simp [fileContent, hc']
        · intro hn
          exact ⟨n, (mem_chunkFiles d n).2 ⟨c, hn⟩, by simp [fileContent, hn]⟩
      · rw [List.pairwise_map]
        exact chunkFiles_strict d
      · rw [hout, List.flatMap_map]

set_option maxRecDepth 100000 in
/-- A directory of two files and a subdirectory, for C8. -/
theorem mergeFiles_output_witness :
    (mergeFiles (str "out") ⟨.dir [(str "b", .file [1]), (str "sub", .dir), (str "a", .file [2])],
      []⟩).1 = .ok () ∧
    ∃ d, ∃ l : List (Bytes × Bytes),
      (⟨.dir [(str "b", .file [1]), (str "sub", .dir), (str "a", .file [2])], []⟩ : FS).temp
        = .dir d ∧
      (∀ n c, (n, c) ∈ l ↔ dirLookup d n = some (.file c)) ∧
      l.Pairwise (fun a b => List.Lex (· < ·) a.1 b.1) ∧
      dirLookup (mergeFiles (str "out")
          ⟨.dir [(str "b", .file [1]), (str "sub", .dir), (str "a", .file [2])], []⟩).2.cwd
        (str "out") = some (.file (l.flatMap Prod.snd)) :=
  ⟨by decide, mergeFiles_output (str "out")
    ⟨.dir [(str "b", .file [1]), (str "sub", .dir), (str "a", .file [2])], []⟩ (by decide)⟩

/-! ## Upload does not fail over files -/

theorem osCreate_of {d : Dir} {n : Bytes} (hn : ¬ (n = [] ∨ n = [46] ∨ n = [46, 46]))
    (hd : dirLookup d n ≠ some .dir) : osCreate d n = some (dirSet d n (.file [])) := by
  unfold osCreate
  rw [if_neg hn]
  cases h : dirLookup d n with
  | none => rfl
  | some v =>
    cases v with
    | file c => rfl
    | dir => exact absurd h hd

theorem osRename_of {d : Dir} {o n c : Bytes} (ho : dirLookup d o = some (.file c))
    (hn : dirLookup d n ≠ some .dir) :
    osRename d o n = some (dirSet (dirRemove d o) n (.file c)) := by
  cases h : dirLookup d n with
  | none => simp [osRename, ho, h]
  | some v =>
    cases v with
    | file c' => simp [osRename, ho, h]
    | dir => exact absurd h hn

theorem uploadLoop_succeeds (reads : List ReadResult) : ∀ (k : Nat) (d : Dir) (m : Bytes),
    (∀ n, dirLookup d n ≠ some .dir) → dirLookup d linksName = some (.file m) →
    (∀ r ∈ reads, r.err ≠ .other) → (uploadLoop reads k d).1.status = 200 := by
  induction reads with
  | nil => intro k d m _ _ _; rfl
  | cons r rest ih =>
    intro k d m hnd hl herr
    cases hr : r.err with
    | eof => simp [uploadLoop, hr]
    | other => exact absurd hr (herr r (List.mem_cons_self _ _))
    | nil =>
      have hc := osCreate_of (tempChunkName_creatable k) (hnd (tempChunkName k))
      have hT : dirLookup (fileAppend (dirSet d (tempChunkName k) (.file [])) (tempChunkName k)
          r.data) (tempChunkName k) = some (.file r.data) := by
        rw [dirLookup_fileAppend, if_pos rfl, dirLookup_set, if_pos rfl]
        simp
      have hZT := chunkFileName_ne_temp (md5Hex_isHexDigest r.data) k
      have hZ : dirLookup (fileAppend (dirSet d (tempChunkName k) (.file [])) (tempChunkName k)
          r.data) (chunkFileName (md5Hex r.data)) ≠ some .dir := by
        rw [dirLookup_fileAppend, if_neg hZT, dirLookup_set, if_neg hZT]
        exact hnd _
      have hn := osRename_of hT hZ
      have hstep := uploadStep hl hc hn
      have hu : uploadLoop (r :: rest) k d = uploadLoop rest (k + 1)
          (fileAppend (dirSet (dirRemove (fileAppend (dirSet d (tempChunkName k) (.file []))
            (tempChunkName k) r.data) (tempChunkName k)) (chunkFileName (md5Hex r.data))
            (.file r.data)) linksName (md5Line (md5Hex r.data))) := by
        simp [uploadLoop, hr, hc, hn]
      rw [hu]
      refine ih (k + 1) _ (m ++ md5Line (md5Hex r.data)) ?_ ?_
        (fun x hx => herr x (List.mem_cons_of_mem _ hx))
      · intro n
        rw [hstep]
        split
        · simp
        · split
          · simp
          · split
            · simp
            · exact hnd n
      · rw [hstep, if_pos rfl]

theorem Upload_fresh_succeeds (name : Bytes) (reads : List ReadResult)
    (herr : ∀ r ∈ reads, r.err ≠ .other) (cwd : Dir) :
    (Upload (uploadOf name reads) ⟨.missing, cwd⟩).1.status = 200 := by
  have hc : osCreate [] linksName = some (dirSet [] linksName (.file [])) :=
    osCreate_of (by rw [linksName_eq]; simp) (by simp [dirLookup])
  have hl := start_lookup hc name
  unfold Upload uploadOf
  simp only [Bool.true_eq_false, if_false, mkdirAll, hc]
  refine uploadLoop_succeeds reads 0 _ (headerLine name) ?_ ?_ herr
  · intro n
    rw [hl]
    split
    · simp
    · simp [dirLookup]
  · rw [hl, if_pos rfl]

/-! ## A file of two equal chunks -/

theorem slices_two_equal {cs : Nat} (hcs : 0 < cs) (a : Byte) :
    slices cs (List.replicate (2 * cs) a) = [List.replicate cs a, List.replicate cs a] := by
  have h1 : List.replicate (2 * cs) a ≠ [] := by
    intro e
    have := congrArg List.length e
    simp at this
    omega
  have h2 : List.replicate cs a ≠ [] := by
    intro e
    have := congrArg List.length e
    simp at this
    omega
  have t1 : (List.replicate (2 * cs) a).take cs = List.replicate cs a := by
    rw [List.take_replicate]; congr 1; omega
  have d1 : (List.replicate (2 * cs) a).drop cs = List.replicate cs a := by
    rw [List.drop_replicate]; congr 1; omega
  have t2 : (List.replicate cs a).take cs = List.replicate cs a := by
    rw [List.take_replicate]; congr 1; omega
  have d2 : (List.replicate cs a).drop cs = [] := by
    rw [List.drop_replicate]; simp
  rw [slices_cons hcs h1, t1, d1, slices_cons hcs h2, t2, d2, slices_nil hcs]

theorem hexDigest_creatable {h : Bytes} (hh : IsHexDigest h) :
    ¬ (h = [] ∨ h = [46] ∨ h = [46, 46]) := by
  obtain ⟨hl, _⟩ := hh
  rintro (e | e | e) <;> rw [e] at hl <;> simp at hl

theorem chunkURL_eq (base id : Bytes) :
    chunkURL base id = base ++ 47 :: chunkFileName id := by
  have h1 : str "/" = [47] := by decide
  have h2 : str "." ++ str "zip" = str ".zip" := by decide
  unfold chunkURL chunkFileName
  rw [List.append_assoc, List.append_assoc, h2, h1, List.append_assoc]
  rfl

theorem linksURL_eq (base : Bytes) : linksURL base = base ++ 108 :: [105, 110, 107, 115, 46, 116, 120, 116] := by
  have : str "links.txt" = [108, 105, 110, 107, 115, 46, 116, 120, 116] := by decide
  rw [linksURL, this]

theorem storeServer_links {d : Dir} {c : Bytes} (base : Bytes)
    (h : dirLookup d linksName = some (.file c)) :
    storeServer d base (linksURL base) = .response 200 c none := by
  simp [storeServer, h]

theorem storeServer_chunk {d : Dir} {c : Bytes} (base id : Bytes)
    (h : dirLookup d (chunkFileName id) = some (.file c)) :
    storeServer d base (chunkURL base id) = .response 200 c none := by
  have hne : chunkURL base id ≠ linksURL base := by
    rw [chunkURL_eq, linksURL_eq]
    intro e
    have := List.append_cancel_left e
    simp at this
  have hp : (base ++ str "/").isPrefixOf (chunkURL base id) = true := by
    rw [List.isPrefixOf_iff_prefix, chunkURL_eq]
    have h1 : str "/" = [47] := by decide
    rw [h1]
    exact ⟨chunkFileName id, by simp⟩
  have hd : (chunkURL base id).drop (base.length + 1) = chunkFileName id := by
    rw [chunkURL_eq]
    have : base ++ 47 :: chunkFileName id = (base ++ [47]) ++ chunkFileName id := by simp
    rw [this]
    exact List.drop_left' (by simp)
  unfold storeServer
  rw [if_neg hne, if_pos hp, hd]
  simp only [h]

theorem downloadChunk_ok {http : Server} {url name body : Bytes} {d : Dir}
    (h : http url = .response 200 body none)
    (hn : ¬ (name = [] ∨ name = [46] ∨ name = [46, 46]))
    (hd : dirLookup d name ≠ some .dir) :
    downloadChunk http url name d
      = (.ok (), fileAppend (dirSet d name (.file [])) name body, [url]) := by
  unfold downloadChunk
  rw [h]
  simp [osCreate_of hn hd]

theorem fileAppend_set_empty (d : Dir) (name body : Bytes) :
    fileAppend (dirSet d name (.file [])) name body
      = (name, .file body) :: dirRemove d name := by
  unfold fileAppend
  rw [dirLookup_set, if_pos rfl]
  simp [dirSet, dirRemove, List.filter_filter]

/-- Twice the same chunk in the manifest leaves one file in `./temp`. -/
theorem downloadChunks_twice {http : Server} {base h body : Bytes}
    (hf : http (chunkURL base h) = .response 200 body none)
    (hn : ¬ (h = [] ∨ h = [46] ∨ h = [46, 46])) :
    downloadChunks http base [h, h] []
      = (.ok (), [(h, .file body)], [chunkURL base h, chunkURL base h]) := by
  have e1 : downloadChunk http (chunkURL base h) h [] = (.ok (), [(h, .file body)], [chunkURL base h]) := by
    rw [downloadChunk_ok hf hn (by simp [dirLookup]), fileAppend_set_empty]
    simp [dirRemove]
  have e2 : downloadChunk http (chunkURL base h) h [(h, .file body)]
      = (.ok (), [(h, .file body)], [chunkURL base h]) := by
    rw [downloadChunk_ok hf hn (by simp [dirLookup]), fileAppend_set_empty]
    simp [dirRemove]
  rw [downloadChunks_cons_ok (by rw [e1]), e1]
  simp only
  rw [downloadChunks_cons_ok (by rw [e2]), e2]
  simp [downloadChunks]

theorem mergeFiles_single {name h body : Bytes} (cwd : Dir)
    (hn : ¬ (name = [] ∨ name = [46] ∨ name = [46, 46]))
    (hd : dirLookup cwd name ≠ some .dir) :
    (mergeFiles name ⟨.dir [(h, .file body)], cwd⟩).1 = .ok () ∧
    dirLookup (mergeFiles name ⟨.dir [(h, .file body)], cwd⟩).2.cwd name = some (.file body) := by
  obtain ⟨h1, h2⟩ := @mergeFiles_run name ⟨.dir [(h, .file body)], cwd⟩ _ _ (osCreate_of hn hd) rfl
  refine ⟨h1, ?_⟩
  rw [h2]
  simp [readDir, dirNames, sortStrings, insertSorted, isDir, dirLookup, fileContent]

/-- Splitting an input of two equal chunks and downloading it from the store
that `Upload` left gives back one chunk only. -/
theorem round_trip_two_equal_chunks {cs : Nat} (hcs : 0 < cs) (a : Byte) (name base : Bytes)
    (hname : LineSafe name) (hcreat : ¬ (name = [] ∨ name = [46] ∨ name = [46, 46])) :
    (Upload (uploadOf name (fileReads cs (List.replicate (2 * cs) a))) ⟨.missing, []⟩).1.status
      = 200 ∧
    ∃ store, (Upload (uploadOf name (fileReads cs (List.replicate (2 * cs) a)))
        ⟨.missing, []⟩).2.temp = .dir store ∧
      (DownloadFile (storeServer store base) base ⟨.missing, []⟩).result = .ok () ∧
      dirLookup (DownloadFile (storeServer store base) base ⟨.missing, []⟩).fs.cwd name
        = some (.file (List.replicate cs a)) := by
  have hok := Upload_fresh_succeeds name (fileReads cs (List.replicate (2 * cs) a))
    (fileReadsAux_err cs _ _) []
  refine ⟨hok, ?_⟩
  obtain ⟨_, store, _, hd, _, hl, hz, _⟩ := Upload_spec hok
  have hp : processed (fileReads cs (List.replicate (2 * cs) a))
      = [⟨List.replicate cs a, .nil⟩, ⟨List.replicate cs a, .nil⟩] := by
    rw [processed_fileReads hcs, slices_two_equal hcs]
    rfl
  rw [hp] at hl hz
  have hh := md5Hex_isHexDigest (List.replicate cs a)
  obtain ⟨r', hr', _, hzR⟩ := hz ⟨List.replicate cs a, .nil⟩ (List.mem_cons_self _ _)
  have hr'd : r'.data = List.replicate cs a := by
    simp only [List.mem_cons, List.mem_singleton, List.not_mem_nil, or_false, or_self] at hr'
    rw [hr']
  rw [hr'd] at hzR
  simp only [List.map_cons, List.map_nil] at hl
  have hlinks := storeServer_links base hl
  have hchunk := storeServer_chunk base _ hzR
  have hdec := readLinks_manifestText name
    [md5Hex (List.replicate cs a), md5Hex (List.replicate cs a)] hname
    (fun x hx => by
      simp only [List.mem_cons, List.mem_singleton, List.not_mem_nil, or_false, or_self] at hx
      rw [hx]; exact hexDigest_lineSafe hh)
  have hdl := downloadChunks_twice hchunk (hexDigest_creatable hh)
  obtain ⟨m1, m2⟩ := @mergeFiles_single name (md5Hex (List.replicate cs a))
    (List.replicate cs a) [] hcreat (by simp [dirLookup])
  refine ⟨store, hd, ?_, ?_⟩
  · simp only [DownloadFile, hlinks, hdec, mkdirAll, hdl]
    exact m1
  · simp only [DownloadFile, hlinks, hdec, mkdirAll, hdl]
    exact m2

/-- C1 fails on the code. A file `f.bin` of twice `chunkSize` bytes `A` is
uploaded into an empty file system; `DownloadFile`, run on an empty file system
against the store that `Upload` left, succeeds and writes `f.bin` with
`chunkSize` bytes `A`, half of the input. -/
theorem round_trip_loses_repeated_chunk :
    (Upload (uploadOf (str "f.bin") (fileReads chunkSize (List.replicate (2 * chunkSize) 65)))
      ⟨.missing, []⟩).1.status = 200 ∧
    (∃ store, (Upload (uploadOf (str "f.bin")
          (fileReads chunkSize (List.replicate (2 * chunkSize) 65))) ⟨.missing, []⟩).2.temp
        = .dir store ∧
      (DownloadFile (storeServer store (str "http://h")) (str "http://h") ⟨.missing, []⟩).result
        = .ok () ∧
      dirLookup (DownloadFile (storeServer store (str "http://h")) (str "http://h")
          ⟨.missing, []⟩).fs.cwd (str "f.bin")
        = some (.file (List.replicate chunkSize 65))) ∧
    List.replicate chunkSize 65 ≠ List.replicate (2 * chunkSize) 65 := by
  have h := @round_trip_two_equal_chunks chunkSize (by decide) 65 (str "f.bin")
    (str "http://h") ⟨by decide, by decide, by decide⟩ (by decide)
  refine ⟨h.1, h.2, ?_⟩
  intro e
  have hlen := congrArg List.length e
  rw [List.length_replicate, List.length_replicate] at hlen
  have hpos : 0 < chunkSize := by decide
  omega

end Lantistp
